import Mathlib

/-!
Verification of the workflow-graph analysis engine of the
`agents-and-commands` repository.

The repository contains two format-specific pipelines:
* `src/prompts/dynamo-analyser/dynamo-flow-diagram-generator.py` together
  with `src/plugins/aec-analysis-toolkit/skills/dynamo-analyzer/dynamo_utils.py`
  (the "Dynamo" pipeline, JSON `.dyn` graphs), and
* `src/prompts/grasshopper-analyser/flow-diagram-generator.py`
  (the "Grasshopper" pipeline, XML `.ghx` archives).

This file is a shallow embedding of the graph engine of both pipelines:
Python dicts keyed by strings become association lists (`List (String × _)`)
whose iteration order is the dict insertion order, `collections.defaultdict`
reads become lookups with a `[]` default, and the traversal loops become
fuel-indexed structural recursions that mirror the loop bodies line by line.
-/

/-- Forward/reverse adjacency of a graph: a Python `dict`/`defaultdict`
mapping a node id to the ordered list of its neighbours, modelled as an
association list in dict insertion order. -/
abbrev Adj := List (String × List String)

/-- `m.get(k, [])` / `defaultdict(list)` read access: the list stored under
the first matching key, or `[]` when the key is absent. -/
def lookupD : Adj → String → List String
  | [], _ => []
  | (k', vs) :: rest, k => if k' = k then vs else lookupD rest k

/-- `defaultdict(list); m[k].append(v)`: append `v` to the entry of `k`,
creating the entry at the end (dict insertion order) when `k` is new. -/
def adjAppend : Adj → String → String → Adj
  | [], k, v => [(k, [v])]
  | (k', vs) :: rest, k, v =>
    if k' = k then (k', vs ++ [v]) :: rest else (k', vs) :: adjAppend rest k v

/-- Python `dict` assignment `m[k] = v`: replace the value in place when the
key exists (keeping its original position), else append a new entry. -/
def assocPut {α : Type} : List (String × α) → String → α → List (String × α)
  | [], k, v => [(k, v)]
  | (k', v') :: rest, k, v =>
    if k' = k then (k, v) :: rest else (k', v') :: assocPut rest k v

/-- First-match association lookup (Python `dict.get(k)`), `none` if absent. -/
def assocFind {α : Type} : List (String × α) → String → Option α
  | [], _ => none
  | (k', v) :: rest, k => if k' = k then some v else assocFind rest k

/-- Remove duplicates keeping the first occurrence of each element, the way
Python `dict` keys accumulate. -/
def dedupFirstAux (seen : List String) : List String → List String
  | [] => []
  | x :: xs => if x ∈ seen then dedupFirstAux seen xs else x :: dedupFirstAux (x :: seen) xs

/-- Python-style order-preserving deduplication (first occurrence wins). -/
def dedupFirst (l : List String) : List String := dedupFirstAux [] l

/-- Lexicographic comparison of character lists (Python `str` ordering by
code point). -/
def strLtChars : List Char → List Char → Bool
  | [], [] => false
  | [], _ :: _ => true
  | _ :: _, [] => false
  | a :: as, b :: bs => if a = b then strLtChars as bs else decide (a < b)

/-- Python `<` on strings. -/
def strLtB (a b : String) : Bool := strLtChars a.data b.data

/-- Insert into an ascending list (stable): used to model Python `sorted`. -/
def insAsc (x : String) : List String → List String
  | [] => [x]
  | y :: ys => if strLtB y x then y :: insAsc x ys else x :: y :: ys

/-- Python `sorted(list_of_strings)`. -/
def sortStrs (l : List String) : List String := l.foldr insAsc []

/-- Does `needle` occur at the start of `hay`? -/
def matchAt : List Char → List Char → Bool
  | [], _ => true
  | _ :: _, [] => false
  | a :: as, b :: bs => a = b && matchAt as bs

/-- Does `needle` occur anywhere inside `hay`? -/
def hasSub (needle : List Char) : List Char → Bool
  | [] => matchAt needle []
  | c :: cs => matchAt needle (c :: cs) || hasSub needle cs

/-- Python `needle in hay` on strings. -/
def strContainsSub (hay needle : String) : Bool := hasSub needle.data hay.data

/-- Python `str.lower()` (the `ConcreteType` values are ASCII), acting on
the character list of the string. -/
def strLowerStr (s : String) : String := String.mk (s.data.map Char.toLower)

/-- Every consecutive pair of the list is connected by a forward edge of the
adjacency map (the defining property of a workflow path). -/
def isForwardChain (adj : Adj) : List String → Bool
  | [] => true
  | [_] => true
  | a :: b :: rest => (lookupD adj a).contains b && isForwardChain adj (b :: rest)

/-- Stable descending insertion by a `Nat` key: the inserted element goes in
front of the first element whose key is `≤` its own.  Folding this from the
right over a list reproduces Python's stable `sorted(xs, key=k, reverse=True)`:
elements with equal keys keep their original relative order. -/
def insDesc {α : Type} (k : α → Nat) (x : α) : List α → List α
  | [] => [x]
  | y :: ys => if k y ≤ k x then x :: y :: ys else y :: insDesc k x ys

/-- Python `sorted(xs, key=k, reverse=True)` (stable descending sort). -/
def sortDesc {α : Type} (k : α → Nat) (l : List α) : List α := l.foldr (insDesc k) []

/-!
## Dynamo pipeline

`dynamo_utils.py` (`build_indexes`, `indegree_zero`, `outdegree_zero`,
`load_dyn`) and `dynamo-flow-diagram-generator.py` (`_pick_starts`,
`_pick_ends`, `_simple_paths`, `_score_path`, `analyze_flow`).
-/

/-- A raw node record of a `.dyn` JSON file, restricted to the fields the
graph engine reads: `Id`, the port ids of `Inputs`/`Outputs` (a record may
lack its `Id`, modelled as `none`; Python also treats `""` as falsy), and
`ConcreteType`. -/
structure RawNode where
  id : Option String
  inputs : List (Option String)
  outputs : List (Option String)
  concreteType : Option String
deriving DecidableEq

/-- A raw connector record of a `.dyn` file: `Start` and `End` port ids. -/
structure RawConn where
  cStart : Option String
  cEnd : Option String
deriving DecidableEq

/-- `build_indexes` lines 86-91: the `nodes` dict — skip records whose `Id`
is falsy, later records with the same id overwrite the value in place. -/
def dynNodesAssoc (raw : List RawNode) : List (String × RawNode) :=
  raw.foldl
    (fun m n =>
      match n.id with
      | none => m
      | some nid => if nid = "" then m else assocPut m nid n)
    []

/-- The node-id set of the built graph (insertion order of the nodes dict). -/
def dynNodeIds (raw : List RawNode) : List String := (dynNodesAssoc raw).map (·.1)

/-- `build_indexes` lines 110-124: the `port_to_node` dict.  We model dict
overwrite by prepending, so that the first match found by `assocFind` is the
most recent write; port records with a falsy `Id` are skipped. -/
def portToNode (nodes : List (String × RawNode)) : List (String × String) :=
  nodes.foldl
    (fun acc p =>
      let withIns := p.2.inputs.foldl
        (fun a pid => match pid with
          | none => a
          | some s => if s = "" then a else (s, p.1) :: a) acc
      p.2.outputs.foldl
        (fun a pid => match pid with
          | none => a
          | some s => if s = "" then a else (s, p.1) :: a) withIns)
    []

/-- `build_indexes` lines 126-139: resolve each connector through
`port_to_node`, dropping records with a falsy endpoint, an unresolvable
endpoint, or a source node equal to the target node, and insert the resolved
pair into the forward and reverse adjacency defaultdicts. -/
def buildAdjRev (p2n : List (String × String)) (connectors : List RawConn) : Adj × Adj :=
  connectors.foldl
    (fun st c =>
      match c.cStart, c.cEnd with
      | some s, some e =>
        if s = "" ∨ e = "" then st
        else
          match assocFind p2n s, assocFind p2n e with
          | some sNode, some eNode =>
            if sNode = "" ∨ eNode = "" ∨ sNode = eNode then st
            else (adjAppend st.1 sNode eNode, adjAppend st.2 eNode sNode)
          | _, _ => st
      | _, _ => st)
    ([], [])

/-- The part of the `build_indexes` result the flow analysis reads. -/
structure DynGraph where
  nodes : List (String × RawNode)
  adj : Adj
  rev : Adj
deriving DecidableEq

/-- `build_indexes` restricted to the graph-shaped outputs. -/
def dynBuildGraph (raw : List RawNode) (connectors : List RawConn) : DynGraph :=
  let nodes := dynNodesAssoc raw
  let ar := buildAdjRev (portToNode nodes) connectors
  ⟨nodes, ar.1, ar.2⟩

/-- The raw content of a `.dyn` JSON document as far as `load_dyn` inspects
it: either not a JSON object at all, or an object in which the `Nodes` and
`Connectors` keys may each be present or absent. -/
inductive DynRaw where
  | notDict : DynRaw
  | dict : Option (List RawNode) → Option (List RawConn) → DynRaw
deriving DecidableEq

/-- `load_dyn` lines 20-28 after the file has been read (the
`FileNotFoundError` branch is file-system I/O and outside the embedding):
raise `ValueError` unless the document is a dict containing both the `Nodes`
and the `Connectors` key. -/
def loadDyn : DynRaw → Except String DynRaw
  | DynRaw.notDict => Except.error "Invalid .dyn file: missing Nodes/Connectors"
  | DynRaw.dict none _ => Except.error "Invalid .dyn file: missing Nodes/Connectors"
  | DynRaw.dict _ none => Except.error "Invalid .dyn file: missing Nodes/Connectors"
  | DynRaw.dict (some ns) (some cs) => Except.ok (DynRaw.dict (some ns) (some cs))

/-- `indegree_zero` / `outdegree_zero` (`dynamo_utils.py` lines 163-168):
node ids whose adjacency entry is empty, in nodes-dict order. -/
def degreeZero (nodeIds : List String) (m : Adj) : List String :=
  nodeIds.filter (fun nid => lookupD m nid = [])

/-- `_pick_starts` lines 14-17: `list(set(indegree_zero(...)) | set(view_inputs))`.
Python iterates the union set in a hash-dependent order; we fix one order
(zero-indegree nodes first, then view inputs, first occurrence kept).
Membership and emptiness of the result are faithful to the code; the order
of the returned list is *not* specified by the code. -/
def dynPickStarts (nodeIds : List String) (rev : Adj) (viewInputs : List String) : List String :=
  dedupFirst (degreeZero nodeIds rev ++ viewInputs)

/-- `_pick_ends` lines 20-22, same set-union shape on forward adjacency. -/
def dynPickEnds (nodeIds : List String) (adj : Adj) (viewOutputs : List String) : List String :=
  dedupFirst (degreeZero nodeIds adj ++ viewOutputs)

/-- The push phase of `_simple_paths` lines 39-42: for each neighbour of
`node` in adjacency order, skip it when it is already on the current path,
otherwise push `(nxt, path + [nxt])`.  Python appends to the end of the
list used as a stack, so the last neighbour is popped first; with the head
of our list as the stack top this is the reversed neighbour order. -/
def dynPushes (adj : Adj) (node : String) (path : List String) : List (String × List String) :=
  ((lookupD adj node).filterMap
    (fun nxt => if nxt ∈ path then none else some (nxt, path ++ [nxt]))).reverse

/-- The `while` loop of `_simple_paths` lines 31-42.  `steps` is the Python
`steps` counter checked against `guard` (`visited_guard = 10_000`); `fuel`
is an artifact of the embedding making the recursion structural — the claim
that the step guard bounds the iteration count is exactly the statement that
the result does not depend on `fuel` once `guard ≤ steps + fuel`. -/
def dynLoopSteps (adj : Adj) (capPaths capLen : Nat) (endN : String) (guard : Nat) :
    Nat → Nat → List (String × List String) → List (List String) → List (List String)
  | 0, _, _, results => results
  | _ + 1, _, [], results => results
  | fuel + 1, steps, (node, path) :: rest, results =>
    if capPaths ≤ results.length ∨ guard ≤ steps then results
    else if node = endN then
      dynLoopSteps adj capPaths capLen endN guard fuel (steps + 1) rest (results ++ [path])
    else if capLen ≤ path.length then
      dynLoopSteps adj capPaths capLen endN guard fuel (steps + 1) rest results
    else
      dynLoopSteps adj capPaths capLen endN guard fuel (steps + 1)
        (dynPushes adj node path ++ rest) results

/-- `_simple_paths(adj, start, end, cap_paths=50, cap_len=200)`: DFS from
`[(start, [start])]` with the defaults and `visited_guard = 10_000`.  Fuel
`10_000` makes the embedding exact: the Python loop body runs at most
`visited_guard` times. -/
def simplePaths (adj : Adj) (start endN : String) : List (List String) :=
  dynLoopSteps adj 50 200 endN 10000 10000 0 [(start, [start])] []

/-- `_score_path` lines 46-56: each node contributes 2 when the lowered
`ConcreteType` contains `python`, `codeblock` or `dsfunction`, else 1.
`nodes.get(nid, {})` followed by `n.get("ConcreteType") or ""` becomes an
association lookup defaulting to the empty string. -/
def scorePath (nodes : List (String × RawNode)) (path : List String) : Nat :=
  path.foldl
    (fun w nid =>
      let ctype := strLowerStr
        (match assocFind nodes nid with
         | some n => match n.concreteType with | some c => c | none => ""
         | none => "")
      if strContainsSub ctype "python" || strContainsSub ctype "codeblock" ||
          strContainsSub ctype "dsfunction" then w + 2
      else w + 1)
    0

/-- `analyze_flow` line 79: `sorted(all_paths, key=_score_path, reverse=True)[:10]`
— stable descending sort on the weight alone, then the first ten. -/
def dynScoredTop (nodes : List (String × RawNode)) (allPaths : List (List String)) :
    List (List String) :=
  (sortDesc (scorePath nodes) allPaths).take 10

/-- The nested loop of `analyze_flow` lines 71-76 for already-resolved start
and end lists: pool `_simple_paths` results over all pairs with `s ≠ e`,
in loop order. -/
def pairsPool (adj : Adj) (ss es : List String) : List (List String) :=
  ss.foldl
    (fun acc s => es.foldl (fun acc2 e => if s = e then acc2 else acc2 ++ simplePaths adj s e) acc)
    []

/-- Python `xs[-1:]`: the last element as a singleton, `[]` when empty. -/
def lastSlice (l : List String) : List String :=
  match l.getLast? with
  | none => []
  | some x => [x]

/-- `analyze_flow` lines 70-76 including the fallbacks
`starts or list(nodes.keys())[:1]` and `ends or list(nodes.keys())[-1:]`
(`keys` is the nodes dict key order). -/
def dynPoolPaths (adj : Adj) (keys starts ends : List String) : List (List String) :=
  pairsPool adj (if starts.isEmpty then keys.take 1 else starts)
    (if ends.isEmpty then lastSlice keys else ends)

/-- `analyze_flow` lines 82-83: nodes whose adjacency entry (with
multiplicity) has more than one element.  Used with `adj` for the branching
list and with `rev` for the merge list. -/
def dynDegAboveOne (nodeIds : List String) (m : Adj) : List String :=
  nodeIds.filter (fun nid => 1 < (lookupD m nid).length)

/-- The ranked-path part of `analyze_flow` as a function of the start/end
iteration orders (which Python draws from sets, see `dynPickStarts`). -/
def dynRankedPaths (nodes : List (String × RawNode)) (adj : Adj)
    (keys starts ends : List String) : List (List String) :=
  dynScoredTop nodes (dynPoolPaths adj keys starts ends)

/-!
## Grasshopper pipeline

`flow-diagram-generator.py`: `_trace_paths_from_start`,
`_identify_main_workflow_paths`, `_find_start_nodes`, `_find_end_nodes`,
`_identify_branching_points`, `_identify_merge_points`,
`_identify_parallel_processing`, `_find_connection_patterns`,
`_add_connection`, `analyze_xml`.
-/

/-- The push phase of `_trace_paths_from_start` lines 443-447: for each
neighbour of `cur` in adjacency order, skip it when already on the path,
extend otherwise, and enqueue only when the extended path has length at most
ten. -/
def ghPushes (conns : Adj) (cur : String) (path : List String) : List (String × List String) :=
  (lookupD conns cur).filterMap
    (fun n =>
      if n ∈ path then none
      else if path.length + 1 ≤ 10 then some (n, path ++ [n]) else none)

/-- The `while` loop of `_trace_paths_from_start` lines 427-447: FIFO queue
(`deque.popleft`), a visited set of path tuples (used only for membership,
modelled as a list), implicit end at nodes with no outgoing connections,
and only multi-component paths collected.  `fuel` is an embedding artifact;
`claim6_traversals_terminate` proves the result independent of it beyond a
bound computed from the graph. -/
def ghLoop (conns : Adj) (ends : List String) (maxP : Nat) :
    Nat → List (String × List String) → List (List String) → List (List String) →
    List (List String)
  | 0, _, _, paths => paths
  | _ + 1, [], _, paths => paths
  | fuel + 1, (cur, path) :: rest, visited, paths =>
    if maxP ≤ paths.length then paths
    else if path ∈ visited then ghLoop conns ends maxP fuel rest visited paths
    else if cur ∈ ends ∨ lookupD conns cur = [] then
      ghLoop conns ends maxP fuel rest (visited ++ [path])
        (if 1 < path.length then paths ++ [path] else paths)
    else
      ghLoop conns ends maxP fuel (rest ++ ghPushes conns cur path) (visited ++ [path]) paths

/-- All node ids that can ever appear on a queue path: the start node plus
every key and every target of the connections map (first occurrence kept). -/
def ghUniverse (conns : Adj) (start : String) : List String :=
  dedupFirst (start :: conns.foldr (fun p acc => p.1 :: (p.2 ++ acc)) [])

/-- Total number of connection entries (sum of adjacency-list lengths). -/
def connsTotal (conns : Adj) : Nat := conns.foldr (fun p acc => p.2.length + acc) 0

/-- Index of the first occurrence of `s` in `u` (`0` when absent). -/
def idxIn (u : List String) (s : String) : Nat :=
  match u with
  | [] => 0
  | x :: xs => if x = s then 0 else idxIn xs s + 1

/-- Positional encoding of a digit list in base `B + 1` with digits shifted
by one; injective on lists whose digits are `< B` and bounded by
`(B + 1) ^ length`. -/
def natEncode (B : Nat) : List Nat → Nat
  | [] => 0
  | d :: t => (d + 1) + (B + 1) * natEncode B t

/-- A queue path of the Grasshopper BFS is always nonempty, of length at
most ten, and drawn from the universe of node ids. -/
def pathOKb (U : List String) (p : List String) : Bool :=
  !p.isEmpty && decide (p.length ≤ 10) && p.all (fun x => decide (x ∈ U))

/-- A fuel budget sufficient for the Grasshopper BFS to run to completion:
there are fewer than `(|U| + 1) ^ 10` possible path tuples, each loop
iteration either consumes a queue entry or marks a fresh tuple visited, and
one iteration enqueues at most `connsTotal conns` new entries. -/
def ghBound (conns : Adj) (start : String) : Nat :=
  ((ghUniverse conns start).length + 1) ^ 10 * (connsTotal conns + 1) + 1

/-- `_trace_paths_from_start(start_guid, end_nodes, max_paths=3)`. -/
def tracePathsFromStart (conns : Adj) (ends : List String) (maxP : Nat) (start : String) :
    List (List String) :=
  ghLoop conns ends maxP (ghBound conns start) [(start, [start])] [] []

/-- `_identify_main_workflow_paths` lines 417-419:
`all_paths.sort(key=len, reverse=True)` (stable, length only) and the first
ten. -/
def ghTopPaths (allPaths : List (List String)) : List (List String) :=
  (sortDesc (fun p => p.length) allPaths).take 10

/-- The shared body of `_find_start_nodes` (with the reverse connections)
and `_find_end_nodes` (with the forward connections), lines 451-475:
zero-degree candidates, else the nodes attaining the minimum degree.
On an empty component dict the Python fallback would raise `ValueError`
(`min` of an empty sequence); that branch returns `[]` here and the
classifier theorems assume at least one component. -/
def ghDegreeCandidates (comps : List String) (m : Adj) : List String :=
  let zero := comps.filter (fun g => lookupD m g = [])
  if zero.isEmpty then
    match comps with
    | [] => []
    | c :: cs =>
      let minDeg := cs.foldl (fun acc g => Nat.min acc (lookupD m g).length)
        (lookupD m c).length
      comps.filter (fun g => (lookupD m g).length = minDeg)
  else zero

/-- `_find_start_nodes`: zero-indegree components, else minimum indegree. -/
def ghFindStartNodes (comps : List String) (revConns : Adj) : List String :=
  ghDegreeCandidates comps revConns

/-- `_find_end_nodes`: zero-outdegree components, else minimum outdegree. -/
def ghFindEndNodes (comps : List String) (conns : Adj) : List String :=
  ghDegreeCandidates comps conns

/-- `_identify_branching_points` line 479: connection entries with more than
one target (list length, with multiplicity). -/
def ghBranchingPoints (conns : Adj) : Adj :=
  conns.filter (fun p => 1 < p.2.length)

/-- `_identify_merge_points` line 483: reverse entries with more than one
source. -/
def ghMergePoints (revConns : Adj) : Adj :=
  revConns.filter (fun p => 1 < p.2.length)

/-- `defaultdict(list)` keyed by the sorted upstream tuple: append `g` to
the group of `k`, creating the group at the end when the key is new. -/
def groupAppend : List (List String × List String) → List String → String →
    List (List String × List String)
  | [], k, g => [(k, [g])]
  | (k', gs) :: rest, k, g =>
    if k' = k then (k', gs ++ [g]) :: rest else (k', gs) :: groupAppend rest k g

/-- `_identify_parallel_processing` lines 485-501: group the components by
`tuple(sorted(reverse_connections[guid]))`, skipping components without
inputs, and return the member lists of the groups with more than one
member, in key insertion order.  Note the code sorts the raw upstream list
with multiplicity — it does not deduplicate it. -/
def ghParallelGroups (comps : List String) (revConns : Adj) : List (List String) :=
  let groups := comps.foldl
    (fun gs g =>
      let k := sortStrs (lookupD revConns g)
      if k.isEmpty then gs else groupAppend gs k g)
    []
  (groups.filter (fun p => 1 < p.2.length)).map (·.2)

/-- `_add_connection` lines 279-284: append to the forward and reverse
defaultdicts, each guarded by its own duplicate check. -/
def ghAddConnection (st : Adj × Adj) (s t : String) : Adj × Adj :=
  (if t ∈ lookupD st.1 s then st.1 else adjAppend st.1 s t,
   if s ∈ lookupD st.2 t then st.2 else adjAppend st.2 t s)

/-- `_find_connection_patterns` lines 246-259 for one text fragment whose
GUID matches are `guids`: for every ordered pair `(guids[i], guids[j])` with
`i < j`, add a connection when both GUIDs are known components and differ.
(The `len(referenced_guids) >= 2` guard is redundant: with fewer than two
matches the pair loop is empty.) -/
def ghScanPairs (comps : List String) : List String → Adj × Adj → Adj × Adj
  | [], st => st
  | g :: rest, st =>
    ghScanPairs comps rest
      (rest.foldl
        (fun acc t => if g ∈ comps ∧ t ∈ comps ∧ g ≠ t then ghAddConnection acc g t else acc)
        st)

/-- The connection state after scanning a document: every text fragment's
GUID-match list processed in order, starting from the empty defaultdicts. -/
def ghScanAll (comps : List String) (frags : List (List String)) : Adj × Adj :=
  frags.foldl (fun st guids => ghScanPairs comps guids st) ([], [])

/-- `analyze_xml` line 52: after extraction the method returns
`len(self.components) > 0`; all parse exceptions are caught and turned into
`False`, so the caller detects the no-usable-graph condition from the
boolean, never from an exception. -/
def ghAnalyzeOk (comps : List String) : Bool := decide (0 < comps.length)

/-!
## Basic lemmas about the embedding primitives
-/

theorem dedupFirstAux_eq_nil (l : List String) :
    ∀ seen, dedupFirstAux seen l = [] ↔ ∀ x ∈ l, x ∈ seen := by
  induction l with
  | nil => intro seen; simp [dedupFirstAux]
  | cons x xs ih =>
    intro seen
    by_cases hx : x ∈ seen
    · simp [dedupFirstAux, hx, ih seen]
    · simp only [dedupFirstAux, if_neg hx]
      constructor
      · intro h; exact absurd h (List.cons_ne_nil _ _)
      · intro h; exact absurd (h x (List.mem_cons_self _ _)) hx

theorem dedupFirst_eq_nil (l : List String) : dedupFirst l = [] ↔ l = [] := by
  unfold dedupFirst
  rw [dedupFirstAux_eq_nil]
  constructor
  · intro h
    cases l with
    | nil => rfl
    | cons x xs => exact absurd (h x (by simp)) (by simp)
  · intro h; subst h; simp

theorem mem_dedupFirstAux (l : List String) :
    ∀ seen x, x ∈ dedupFirstAux seen l ↔ x ∈ l ∧ x ∉ seen := by
  induction l with
  | nil => intro seen x; simp [dedupFirstAux]
  | cons y ys ih =>
    intro seen x
    by_cases hy : y ∈ seen
    · simp only [dedupFirstAux, if_pos hy, ih, List.mem_cons]
      constructor
      · rintro ⟨h1, h2⟩; exact ⟨Or.inr h1, h2⟩
      · rintro ⟨rfl | h1, h2⟩
        · exact absurd hy h2
        · exact ⟨h1, h2⟩
    · simp only [dedupFirstAux, if_neg hy, List.mem_cons, ih]
      constructor
      · rintro (rfl | ⟨h1, h2⟩)
        · exact ⟨Or.inl rfl, hy⟩
        · refine ⟨Or.inr h1, fun hc => h2 (by simp [hc])⟩
      · rintro ⟨rfl | h1, h2⟩
        · exact Or.inl rfl
        · by_cases hxy : x = y
          · exact Or.inl hxy
          · exact Or.inr ⟨h1, by simp [h2, hxy]⟩

theorem mem_dedupFirst (l : List String) (x : String) : x ∈ dedupFirst l ↔ x ∈ l := by
  unfold dedupFirst; rw [mem_dedupFirstAux]; simp

theorem lookupD_length_le_connsTotal (m : Adj) (k : String) :
    (lookupD m k).length ≤ connsTotal m := by
  induction m with
  | nil => simp [lookupD, connsTotal]
  | cons p rest ih =>
    obtain ⟨k', vs⟩ := p
    simp only [lookupD, connsTotal, List.foldr_cons]
    by_cases h : k' = k
    · simp [h, Nat.le_add_right]
    · simp only [if_neg h]
      exact Nat.le_trans ih (Nat.le_add_left _ _)

theorem lookupD_sub (m : Adj) (k : String) :
    lookupD m k = [] ∨ (k, lookupD m k) ∈ m := by
  induction m with
  | nil => simp [lookupD]
  | cons p rest ih =>
    obtain ⟨k', vs⟩ := p
    by_cases h : k' = k
    · subst h; right; simp [lookupD]
    · simp only [lookupD, if_neg h]
      rcases ih with h1 | h1
      · exact Or.inl h1
      · exact Or.inr (List.mem_cons_of_mem _ h1)

theorem start_mem_ghUniverse (conns : Adj) (start : String) :
    start ∈ ghUniverse conns start := by
  unfold ghUniverse
  rw [mem_dedupFirst]
  simp

theorem value_mem_ghUniverse (conns : Adj) (start : String) {k v : String}
    {vs : List String} (hk : (k, vs) ∈ conns) (hv : v ∈ vs) :
    v ∈ ghUniverse conns start := by
  unfold ghUniverse
  rw [mem_dedupFirst]
  refine List.mem_cons_of_mem _ ?_
  induction conns with
  | nil => cases hk
  | cons p rest ih =>
    rcases List.mem_cons.mp hk with hk | hk
    · subst hk; simp [hv]
    · simp only [List.foldr_cons, List.mem_cons, List.mem_append]
      exact Or.inr (Or.inr (ih hk))

theorem lookupD_mem_ghUniverse (conns : Adj) (start cur : String) {v : String}
    (hv : v ∈ lookupD conns cur) : v ∈ ghUniverse conns start := by
  rcases lookupD_sub conns cur with h | h
  · rw [h] at hv; cases hv
  · exact value_mem_ghUniverse conns start h hv

theorem isForwardChain_append (adj : Adj) (p : List String) :
    ∀ c n, isForwardChain adj p = true → p.getLast? = some c →
      (lookupD adj c).contains n = true → isForwardChain adj (p ++ [n]) = true := by
  induction p with
  | nil => intro c n _ h2 _; cases h2
  | cons a rest ih =>
    intro c n h1 h2 h3
    cases rest with
    | nil =>
      simp only [List.getLast?_singleton, Option.some.injEq] at h2
      subst h2
      simpa [isForwardChain] using h3
    | cons b rest' =>
      simp only [isForwardChain, Bool.and_eq_true] at h1
      have h2' : (b :: rest').getLast? = some c := by
        rwa [List.getLast?_cons_cons] at h2
      have := ih c n h1.2 h2' h3
      simp only [List.cons_append, isForwardChain, Bool.and_eq_true]
      exact ⟨h1.1, by simpa using this⟩

theorem getLast?_append_singleton (p : List String) (n : String) :
    (p ++ [n]).getLast? = some n := by
  simp

theorem mem_insDesc {α : Type} (k : α → Nat) (x : α) (l : List α) (z : α) :
    z ∈ insDesc k x l ↔ z = x ∨ z ∈ l := by
  induction l with
  | nil => simp [insDesc]
  | cons y ys ih =>
    by_cases h : k y ≤ k x
    · simp [insDesc, h]
    · simp only [insDesc, if_neg h, List.mem_cons, ih]
      tauto

theorem pairwise_insDesc {α : Type} (k : α → Nat) (x : α) (l : List α)
    (h : l.Pairwise (fun a b => k b ≤ k a)) :
    (insDesc k x l).Pairwise (fun a b => k b ≤ k a) := by
  induction l with
  | nil => simp [insDesc]
  | cons y ys ih =>
    rcases List.pairwise_cons.mp h with ⟨hy, hys⟩
    by_cases hle : k y ≤ k x
    · rw [insDesc, if_pos hle]
      refine List.pairwise_cons.mpr ⟨?_, h⟩
      intro z hz
      rcases List.mem_cons.mp hz with rfl | hz
      · exact hle
      · exact Nat.le_trans (hy z hz) hle
    · rw [insDesc, if_neg hle]
      refine List.pairwise_cons.mpr ⟨?_, ih hys⟩
      intro z hz
      rcases (mem_insDesc k x ys z).mp hz with rfl | hz
      · exact Nat.le_of_lt (Nat.lt_of_not_le hle)
      · exact hy z hz

theorem sortDesc_pairwise {α : Type} (k : α → Nat) (l : List α) :
    (sortDesc k l).Pairwise (fun a b => k b ≤ k a) := by
  induction l with
  | nil => simp [sortDesc]
  | cons x xs ih => exact pairwise_insDesc k x _ ih

theorem mem_sortDesc {α : Type} (k : α → Nat) (l : List α) (z : α) :
    z ∈ sortDesc k l ↔ z ∈ l := by
  induction l with
  | nil => simp [sortDesc]
  | cons x xs ih =>
    show z ∈ insDesc k x (sortDesc k xs) ↔ _
    rw [mem_insDesc, ih]
    simp

theorem filter_insDesc_eq {α : Type} (k : α → Nat) (x : α) (l : List α) :
    (insDesc k x l).filter (fun y => k y == k x) =
      x :: l.filter (fun y => k y == k x) := by
  induction l with
  | nil => simp [insDesc]
  | cons y ys ih =>
    by_cases h : k y ≤ k x
    · simp [insDesc, h]
    · have hne : (k y == k x) = false := by
        simp only [beq_eq_false_iff_ne, ne_eq]
        intro hc; exact h (Nat.le_of_eq hc)
      simp only [insDesc, if_neg h, List.filter_cons, hne, ih]
      simp

theorem filter_insDesc_ne {α : Type} (k : α → Nat) (x : α) (l : List α) (c : Nat)
    (h : k x ≠ c) :
    (insDesc k x l).filter (fun y => k y == c) = l.filter (fun y => k y == c) := by
  induction l with
  | nil => simp [insDesc, h]
  | cons y ys ih =>
    by_cases hle : k y ≤ k x
    · simp only [insDesc, if_pos hle, List.filter_cons]
      have hx : (k x == c) = false := by simp [h]
      simp [hx]
    · simp only [insDesc, if_neg hle, List.filter_cons, ih]

theorem sortDesc_filter_key {α : Type} (k : α → Nat) (l : List α) (c : Nat) :
    (sortDesc k l).filter (fun y => k y == c) = l.filter (fun y => k y == c) := by
  induction l with
  | nil => simp [sortDesc]
  | cons x xs ih =>
    show (insDesc k x (sortDesc k xs)).filter _ = _
    by_cases h : k x = c
    · subst h
      rw [filter_insDesc_eq, ih]
      simp [List.filter_cons]
    · rw [filter_insDesc_ne k x _ c h, ih, List.filter_cons]
      have hx : (k x == c) = false := by simp [h]
      simp [hx]

/-!
## Counting machinery for the Grasshopper traversal bound
-/

theorem idxIn_lt_length (u : List String) (s : String) (h : s ∈ u) :
    idxIn u s < u.length := by
  induction u with
  | nil => cases h
  | cons x xs ih =>
    by_cases hx : x = s
    · simp [idxIn, hx]
    · have hs : s ∈ xs := by
        rcases List.mem_cons.mp h with h1 | h1
        · exact absurd h1.symm hx
        · exact h1
      simp only [idxIn, if_neg hx, List.length_cons]
      exact Nat.succ_lt_succ (ih hs)

theorem idxIn_inj (u : List String) (a b : String) (ha : a ∈ u) (hb : b ∈ u)
    (h : idxIn u a = idxIn u b) : a = b := by
  induction u with
  | nil => cases ha
  | cons x xs ih =>
    by_cases hxa : x = a <;> by_cases hxb : x = b
    · rw [← hxa, ← hxb]
    · exfalso
      simp only [idxIn, if_pos hxa, if_neg hxb] at h
      omega
    · exfalso
      simp only [idxIn, if_neg hxa, if_pos hxb] at h
      omega
    · simp only [idxIn, if_neg hxa, if_neg hxb, Nat.add_right_cancel_iff] at h
      have ha' : a ∈ xs := by
        rcases List.mem_cons.mp ha with h1 | h1
        · exact absurd h1.symm hxa
        · exact h1
      have hb' : b ∈ xs := by
        rcases List.mem_cons.mp hb with h1 | h1
        · exact absurd h1.symm hxb
        · exact h1
      exact ih ha' hb' h

theorem natEncode_lt_pow (B : Nat) (l : List Nat) (h : ∀ d ∈ l, d < B) :
    natEncode B l < (B + 1) ^ l.length := by
  induction l with
  | nil => simp [natEncode]
  | cons d t ih =>
    have hd : d < B := h d (List.mem_cons_self _ _)
    have ht : natEncode B t < (B + 1) ^ t.length :=
      ih (fun x hx => h x (List.mem_cons_of_mem _ hx))
    have h1 : natEncode B (d :: t) < (B + 1) * (natEncode B t + 1) := by
      simp only [natEncode, Nat.mul_add, Nat.mul_one]
      omega
    have h2 : (B + 1) * (natEncode B t + 1) ≤ (B + 1) * (B + 1) ^ t.length :=
      Nat.mul_le_mul_left _ (Nat.succ_le_of_lt ht)
    calc natEncode B (d :: t) < (B + 1) * (natEncode B t + 1) := h1
      _ ≤ (B + 1) * (B + 1) ^ t.length := h2
      _ = (B + 1) ^ (d :: t).length := by
        rw [List.length_cons, Nat.pow_succ, Nat.mul_comm]

theorem natEncode_inj (B : Nat) : ∀ l1 l2 : List Nat, (∀ d ∈ l1, d < B) →
    (∀ d ∈ l2, d < B) → natEncode B l1 = natEncode B l2 → l1 = l2 := by
  intro l1
  induction l1 with
  | nil =>
    intro l2 _ h2 h
    cases l2 with
    | nil => rfl
    | cons d t =>
      exfalso
      simp only [natEncode] at h
      omega
  | cons d1 t1 ih =>
    intro l2 h1 h2 h
    cases l2 with
    | nil =>
      exfalso
      simp only [natEncode] at h
      omega
    | cons d2 t2 =>
      simp only [natEncode] at h
      have hd1 : d1 < B := h1 d1 (List.mem_cons_self _ _)
      have hd2 : d2 < B := h2 d2 (List.mem_cons_self _ _)
      have hm1 : (d1 + 1 + (B + 1) * natEncode B t1) % (B + 1) = d1 + 1 := by
        rw [Nat.add_mul_mod_self_left]
        exact Nat.mod_eq_of_lt (by omega)
      have hm2 : (d2 + 1 + (B + 1) * natEncode B t2) % (B + 1) = d2 + 1 := by
        rw [Nat.add_mul_mod_self_left]
        exact Nat.mod_eq_of_lt (by omega)
      have hd : d1 = d2 := by
        have hEq : d1 + 1 = d2 + 1 := by rw [← hm1, ← hm2, h]
        omega
      subst hd
      have htEq : (B + 1) * natEncode B t1 = (B + 1) * natEncode B t2 := by omega
      have ht : natEncode B t1 = natEncode B t2 :=
        Nat.eq_of_mul_eq_mul_left (Nat.succ_pos B) htEq
      have := ih t2 (fun x hx => h1 x (List.mem_cons_of_mem _ hx))
        (fun x hx => h2 x (List.mem_cons_of_mem _ hx)) ht
      rw [this]

theorem nodup_lt_length_le (l : List Nat) (M : Nat) (h1 : l.Nodup)
    (h2 : ∀ x ∈ l, x < M) : l.length ≤ M := by
  calc l.length = l.toFinset.card := (List.toFinset_card_of_nodup h1).symm
    _ ≤ (Finset.range M).card := by
      apply Finset.card_le_card
      intro x hx
      exact Finset.mem_range.mpr (h2 x (List.mem_toFinset.mp hx))
    _ = M := Finset.card_range M

theorem pathOKb_spec (U p : List String) :
    pathOKb U p = true ↔ p ≠ [] ∧ p.length ≤ 10 ∧ ∀ x ∈ p, x ∈ U := by
  simp [pathOKb, List.all_eq_true, List.isEmpty_iff, and_assoc]

theorem map_idxIn_inj (U : List String) : ∀ p q : List String,
    (∀ x ∈ p, x ∈ U) → (∀ x ∈ q, x ∈ U) →
    p.map (idxIn U) = q.map (idxIn U) → p = q := by
  intro p
  induction p with
  | nil =>
    intro q _ _ h
    cases q with
    | nil => rfl
    | cons b t => simp at h
  | cons a t1 ih =>
    intro q h1 h2 h
    cases q with
    | nil => simp at h
    | cons b t2 =>
      simp only [List.map_cons, List.cons.injEq] at h
      have hab : a = b :=
        idxIn_inj U a b (h1 a (List.mem_cons_self _ _)) (h2 b (List.mem_cons_self _ _)) h.1
      have := ih t2 (fun x hx => h1 x (List.mem_cons_of_mem _ hx))
        (fun x hx => h2 x (List.mem_cons_of_mem _ hx)) h.2
      rw [hab, this]

theorem pathOKb_count_le (U : List String) (L : List (List String)) (h1 : L.Nodup)
    (h2 : ∀ p ∈ L, pathOKb U p = true) : L.length ≤ (U.length + 1) ^ 10 := by
  have hdig : ∀ p ∈ L, ∀ d ∈ p.map (idxIn U), d < U.length := by
    intro p hp d hd
    obtain ⟨x, hx, rfl⟩ := List.mem_map.mp hd
    exact idxIn_lt_length U x (((pathOKb_spec U p).mp (h2 p hp)).2.2 x hx)
  have hmapnodup : (L.map (fun p => natEncode U.length (p.map (idxIn U)))).Nodup := by
    apply List.Nodup.map_on ?_ h1
    intro p hp q hq h
    have hp' := (pathOKb_spec U p).mp (h2 p hp)
    have hq' := (pathOKb_spec U q).mp (h2 q hq)
    exact map_idxIn_inj U p q hp'.2.2 hq'.2.2
      (natEncode_inj U.length _ _ (hdig p hp) (hdig q hq) h)
  have hlt : ∀ x ∈ L.map (fun p => natEncode U.length (p.map (idxIn U))),
      x < (U.length + 1) ^ 10 := by
    intro x hx
    obtain ⟨p, hp, rfl⟩ := List.mem_map.mp hx
    have hlen : (p.map (idxIn U)).length ≤ 10 := by
      rw [List.length_map]
      exact ((pathOKb_spec U p).mp (h2 p hp)).2.1
    calc natEncode U.length (p.map (idxIn U))
        < (U.length + 1) ^ (p.map (idxIn U)).length := natEncode_lt_pow _ _ (hdig p hp)
      _ ≤ (U.length + 1) ^ 10 := Nat.pow_le_pow_right (Nat.succ_pos _) hlen
  have := nodup_lt_length_le _ _ hmapnodup hlt
  rwa [List.length_map] at this

/-!
## Characterization of the traversal push phases
-/

theorem mem_dynPushes (adj : Adj) (node : String) (path : List String)
    (e : String × List String) :
    e ∈ dynPushes adj node path ↔
      e.1 ∈ lookupD adj node ∧ e.1 ∉ path ∧ e.2 = path ++ [e.1] := by
  unfold dynPushes
  rw [List.mem_reverse, List.mem_filterMap]
  constructor
  · rintro ⟨a, ha, heq⟩
    by_cases h1 : a ∈ path
    · simp [h1] at heq
    · simp only [if_neg h1, Option.some.injEq] at heq
      subst heq
      exact ⟨ha, h1, rfl⟩
  · rintro ⟨h1, h2, h3⟩
    refine ⟨e.1, h1, ?_⟩
    obtain ⟨n, p⟩ := e
    simp only at h2 h3
    simp [h2, h3]

theorem mem_ghPushes (conns : Adj) (cur : String) (path : List String)
    (e : String × List String) :
    e ∈ ghPushes conns cur path ↔
      e.1 ∈ lookupD conns cur ∧ e.1 ∉ path ∧ path.length + 1 ≤ 10 ∧
        e.2 = path ++ [e.1] := by
  unfold ghPushes
  rw [List.mem_filterMap]
  constructor
  · rintro ⟨a, ha, heq⟩
    by_cases h1 : a ∈ path
    · simp [h1] at heq
    · by_cases h2 : path.length + 1 ≤ 10
      · simp only [if_neg h1, if_pos h2, Option.some.injEq] at heq
        subst heq
        exact ⟨ha, h1, h2, rfl⟩
      · simp [h1, h2] at heq
  · rintro ⟨h1, h2, h3, h4⟩
    refine ⟨e.1, h1, ?_⟩
    obtain ⟨n, p⟩ := e
    simp only at h2 h3 h4
    simp [h2, h3, h4]

theorem ghPushes_length_le (conns : Adj) (cur : String) (path : List String) :
    (ghPushes conns cur path).length ≤ connsTotal conns :=
  Nat.le_trans (List.length_filterMap_le _ _) (lookupD_length_le_connsTotal conns cur)

/-!
## Fuel irrelevance of the Dynamo DFS (the step guard bounds the loop)
-/

theorem dynLoopSteps_fuel_irrel (adj : Adj) (capP capL : Nat) (endN : String)
    (guard : Nat) :
    ∀ f1 f2 steps stack res, guard ≤ steps + f1 → guard ≤ steps + f2 →
      dynLoopSteps adj capP capL endN guard f1 steps stack res =
        dynLoopSteps adj capP capL endN guard f2 steps stack res := by
  intro f1
  induction f1 with
  | zero =>
    intro f2 steps stack res h1 h2
    have hg : guard ≤ steps := by omega
    cases f2 with
    | zero => rfl
    | succ g =>
      cases stack with
      | nil => simp [dynLoopSteps]
      | cons e rest =>
        obtain ⟨node, path⟩ := e
        rw [dynLoopSteps, dynLoopSteps, if_pos (Or.inr hg)]
  | succ k ih =>
    intro f2 steps stack res h1 h2
    cases f2 with
    | zero =>
      have hg : guard ≤ steps := by omega
      cases stack with
      | nil => simp [dynLoopSteps]
      | cons e rest =>
        obtain ⟨node, path⟩ := e
        rw [dynLoopSteps, dynLoopSteps, if_pos (Or.inr hg)]
    | succ g =>
      cases stack with
      | nil => simp [dynLoopSteps]
      | cons e rest =>
        obtain ⟨node, path⟩ := e
        rw [dynLoopSteps, dynLoopSteps]
        by_cases hcond : capP ≤ res.length ∨ guard ≤ steps
        · rw [if_pos hcond, if_pos hcond]
        · rw [if_neg hcond, if_neg hcond]
          have h1' : guard ≤ (steps + 1) + k := by omega
          have h2' : guard ≤ (steps + 1) + g := by omega
          by_cases hend : node = endN
          · rw [if_pos hend, if_pos hend]
            exact ih g (steps + 1) rest (res ++ [path]) h1' h2'
          · rw [if_neg hend, if_neg hend]
            by_cases hlen : capL ≤ path.length
            · rw [if_pos hlen, if_pos hlen]
              exact ih g (steps + 1) rest res h1' h2'
            · rw [if_neg hlen, if_neg hlen]
              exact ih g (steps + 1) (dynPushes adj node path ++ rest) res h1' h2'

theorem measure_drop_skip (P a k : Nat) (h : P + (a + 1) ≤ k + 1) : P + a ≤ k := by omega

theorem measure_drop_end (P T a k : Nat) (h : P + (T + 1) + (a + 1) ≤ k + 1) :
    P + a ≤ k := by omega

theorem measure_drop_push (P T a b k : Nat) (hb : b ≤ T)
    (h : P + (T + 1) + (a + 1) ≤ k + 1) : P + (a + b) ≤ k := by omega

theorem measure_nil (P n : Nat) (h : P + (n + 1) ≤ 0) : False := by omega

/-- Fuel irrelevance of the Grasshopper BFS: once the fuel is at least
`(|U| + 1)^10 * (connsTotal conns + 1) + |queue|` (minus the already-visited
valid tuples), the result no longer depends on it.  Every iteration either
consumes a queue entry (skip branch) or marks a previously unvisited path
tuple as visited while enqueuing at most `connsTotal conns` new entries,
and there are fewer than `(|U| + 1)^10` distinct path tuples. -/
theorem ghLoop_fuel_irrel (conns : Adj) (ends : List String) (maxP : Nat)
    (U : List String) (hU : ∀ cur v, v ∈ lookupD conns cur → v ∈ U) :
    ∀ f1 f2 (queue : List (String × List String)) (visited paths : List (List String)),
      (∀ e ∈ queue, pathOKb U e.2 = true) → visited.Nodup →
      ((U.length + 1) ^ 10 - (visited.filter (pathOKb U)).length) * (connsTotal conns + 1)
          + queue.length ≤ f1 →
      ((U.length + 1) ^ 10 - (visited.filter (pathOKb U)).length) * (connsTotal conns + 1)
          + queue.length ≤ f2 →
      ghLoop conns ends maxP f1 queue visited paths =
        ghLoop conns ends maxP f2 queue visited paths := by
  intro f1
  induction f1 with
  | zero =>
    intro f2 queue visited paths _ _ h1 _
    have hq0 : queue = [] := by
      cases queue with
      | nil => rfl
      | cons e rest =>
        exact absurd h1 (by simp only [List.length_cons]; intro h; exact measure_nil _ _ h)
    subst hq0
    cases f2 with
    | zero => rfl
    | succ g => rfl
  | succ k ih =>
    intro f2 queue visited paths hq hv h1 h2
    cases f2 with
    | zero =>
      have hq0 : queue = [] := by
        cases queue with
        | nil => rfl
        | cons e rest =>
          exact absurd h2 (by simp only [List.length_cons]; intro h; exact measure_nil _ _ h)
      subst hq0
      rfl
    | succ g =>
      cases queue with
      | nil => rfl
      | cons e rest =>
        obtain ⟨cur, path⟩ := e
        rw [ghLoop, ghLoop]
        by_cases hm : maxP ≤ paths.length
        · rw [if_pos hm, if_pos hm]
        · rw [if_neg hm, if_neg hm]
          by_cases hvis : path ∈ visited
          · rw [if_pos hvis, if_pos hvis]
            have hq' : ∀ e ∈ rest, pathOKb U e.2 = true :=
              fun e he => hq e (List.mem_cons_of_mem _ he)
            have hm1 : ((U.length + 1) ^ 10 - (visited.filter (pathOKb U)).length)
                * (connsTotal conns + 1) + rest.length ≤ k := by
              simp only [List.length_cons] at h1
              exact measure_drop_skip _ _ _ h1
            have hm2 : ((U.length + 1) ^ 10 - (visited.filter (pathOKb U)).length)
                * (connsTotal conns + 1) + rest.length ≤ g := by
              simp only [List.length_cons] at h2
              exact measure_drop_skip _ _ _ h2
            exact ih g rest visited paths hq' hv hm1 hm2
          · rw [if_neg hvis, if_neg hvis]
            have hps : pathOKb U path = true := hq (cur, path) (List.mem_cons_self _ _)
            have hcount : ((visited ++ [path]).filter (pathOKb U)).length
                = (visited.filter (pathOKb U)).length + 1 := by
              rw [List.filter_append]
              simp [hps]
            have hnodup' : (visited ++ [path]).Nodup := by
              simp [List.nodup_append, hv, hvis]
            have hcle : (visited.filter (pathOKb U)).length + 1 ≤ (U.length + 1) ^ 10 := by
              have hall : ∀ p ∈ (visited ++ [path]).filter (pathOKb U),
                  pathOKb U p = true := fun p hp => (List.mem_filter.mp hp).2
              have := pathOKb_count_le U _ (hnodup'.filter _) hall
              rwa [hcount] at this
            have hsplit : ((U.length + 1) ^ 10 - (visited.filter (pathOKb U)).length)
                * (connsTotal conns + 1)
                = ((U.length + 1) ^ 10 - ((visited.filter (pathOKb U)).length + 1))
                    * (connsTotal conns + 1) + (connsTotal conns + 1) := by
              have h10 : (U.length + 1) ^ 10 - (visited.filter (pathOKb U)).length
                  = ((U.length + 1) ^ 10 - ((visited.filter (pathOKb U)).length + 1)) + 1 := by
                omega
              rw [h10, Nat.succ_mul]
            by_cases hend : cur ∈ ends ∨ lookupD conns cur = []
            · rw [if_pos hend, if_pos hend]
              have hq' : ∀ e ∈ rest, pathOKb U e.2 = true :=
                fun e he => hq e (List.mem_cons_of_mem _ he)
              have hm1 : ((U.length + 1) ^ 10 - ((visited ++ [path]).filter (pathOKb U)).length)
                  * (connsTotal conns + 1) + rest.length ≤ k := by
                rw [hcount]
                rw [hsplit] at h1
                simp only [List.length_cons] at h1
                exact measure_drop_end _ _ _ _ h1
              have hm2 : ((U.length + 1) ^ 10 - ((visited ++ [path]).filter (pathOKb U)).length)
                  * (connsTotal conns + 1) + rest.length ≤ g := by
                rw [hcount]
                rw [hsplit] at h2
                simp only [List.length_cons] at h2
                exact measure_drop_end _ _ _ _ h2
              exact ih g rest (visited ++ [path]) _ hq' hnodup' hm1 hm2
            · rw [if_neg hend, if_neg hend]
              have hq' : ∀ e ∈ rest ++ ghPushes conns cur path, pathOKb U e.2 = true := by
                intro e he
                rcases List.mem_append.mp he with he | he
                · exact hq e (List.mem_cons_of_mem _ he)
                · obtain ⟨he1, _, he3, he4⟩ := (mem_ghPushes conns cur path e).mp he
                  have hps' := (pathOKb_spec U path).mp hps
                  rw [pathOKb_spec, he4]
                  refine ⟨by simp, by simp [he3], ?_⟩
                  intro x hx
                  rcases List.mem_append.mp hx with hx | hx
                  · exact hps'.2.2 x hx
                  · rw [List.mem_singleton.mp hx]
                    exact hU cur e.1 he1
              have hm1 : ((U.length + 1) ^ 10 - ((visited ++ [path]).filter (pathOKb U)).length)
                  * (connsTotal conns + 1) + (rest ++ ghPushes conns cur path).length ≤ k := by
                rw [hcount, List.length_append]
                rw [hsplit] at h1
                simp only [List.length_cons] at h1
                exact measure_drop_push _ _ _ _ _ (ghPushes_length_le conns cur path) h1
              have hm2 : ((U.length + 1) ^ 10 - ((visited ++ [path]).filter (pathOKb U)).length)
                  * (connsTotal conns + 1) + (rest ++ ghPushes conns cur path).length ≤ g := by
                rw [hcount, List.length_append]
                rw [hsplit] at h2
                simp only [List.length_cons] at h2
                exact measure_drop_push _ _ _ _ _ (ghPushes_length_le conns cur path) h2
              exact ih g (rest ++ ghPushes conns cur path) (visited ++ [path]) paths
                hq' hnodup' hm1 hm2

/-!
## Simple-path invariants of the two traversal loops
-/

theorem dynLoopSteps_simple (adj : Adj) (capP capL : Nat) (endN : String) (guard : Nat) :
    ∀ fuel steps stack res,
      (∀ e ∈ stack, e.2 ≠ [] ∧ e.2.getLast? = some e.1 ∧ e.2.Nodup ∧
        isForwardChain adj e.2 = true) →
      (∀ p ∈ res, p.Nodup ∧ isForwardChain adj p = true) →
      ∀ p ∈ dynLoopSteps adj capP capL endN guard fuel steps stack res,
        p.Nodup ∧ isForwardChain adj p = true := by
  intro fuel
  induction fuel with
  | zero =>
    intro steps stack res _ hres p hp
    rw [dynLoopSteps] at hp
    exact hres p hp
  | succ k ih =>
    intro steps stack res hstack hres p hp
    cases stack with
    | nil =>
      rw [dynLoopSteps] at hp
      exact hres p hp
    | cons e rest =>
      obtain ⟨node, path⟩ := e
      rw [dynLoopSteps] at hp
      by_cases hcond : capP ≤ res.length ∨ guard ≤ steps
      · rw [if_pos hcond] at hp
        exact hres p hp
      · rw [if_neg hcond] at hp
        have hhead := hstack (node, path) (List.mem_cons_self _ _)
        have hrest : ∀ e ∈ rest, e.2 ≠ [] ∧ e.2.getLast? = some e.1 ∧ e.2.Nodup ∧
            isForwardChain adj e.2 = true := fun e he => hstack e (List.mem_cons_of_mem _ he)
        by_cases hend : node = endN
        · rw [if_pos hend] at hp
          refine ih (steps + 1) rest (res ++ [path]) hrest ?_ p hp
          intro q hq
          rcases List.mem_append.mp hq with hq | hq
          · exact hres q hq
          · rw [List.mem_singleton.mp hq]
            exact ⟨hhead.2.2.1, hhead.2.2.2⟩
        · rw [if_neg hend] at hp
          by_cases hlen : capL ≤ path.length
          · rw [if_pos hlen] at hp
            exact ih (steps + 1) rest res hrest hres p hp
          · rw [if_neg hlen] at hp
            refine ih (steps + 1) _ res ?_ hres p hp
            intro e he
            rcases List.mem_append.mp he with he | he
            · obtain ⟨h1, h2, h3⟩ := (mem_dynPushes adj node path e).mp he
              refine ⟨by simp [h3], by rw [h3]; exact getLast?_append_singleton _ _, ?_, ?_⟩
              · rw [h3]
                simp [List.nodup_append, hhead.2.2.1, h2]
              · rw [h3]
                refine isForwardChain_append adj path node e.1 hhead.2.2.2 hhead.2.1 ?_
                simpa using h1
            · exact hrest e he

theorem ghLoop_simple (conns : Adj) (ends : List String) (maxP : Nat) :
    ∀ fuel queue (visited paths : List (List String)),
      (∀ e ∈ queue, e.2 ≠ [] ∧ e.2.getLast? = some e.1 ∧ e.2.Nodup ∧
        isForwardChain conns e.2 = true) →
      (∀ p ∈ paths, p.Nodup ∧ isForwardChain conns p = true) →
      ∀ p ∈ ghLoop conns ends maxP fuel queue visited paths,
        p.Nodup ∧ isForwardChain conns p = true := by
  intro fuel
  induction fuel with
  | zero =>
    intro queue visited paths _ hres p hp
    rw [ghLoop] at hp
    exact hres p hp
  | succ k ih =>
    intro queue visited paths hq hres p hp
    cases queue with
    | nil =>
      rw [ghLoop] at hp
      exact hres p hp
    | cons e rest =>
      obtain ⟨cur, path⟩ := e
      rw [ghLoop] at hp
      by_cases hm : maxP ≤ paths.length
      · rw [if_pos hm] at hp
        exact hres p hp
      · rw [if_neg hm] at hp
        have hhead := hq (cur, path) (List.mem_cons_self _ _)
        have hrest : ∀ e ∈ rest, e.2 ≠ [] ∧ e.2.getLast? = some e.1 ∧ e.2.Nodup ∧
            isForwardChain conns e.2 = true := fun e he => hq e (List.mem_cons_of_mem _ he)
        by_cases hvis : path ∈ visited
        · rw [if_pos hvis] at hp
          exact ih rest visited paths hrest hres p hp
        · rw [if_neg hvis] at hp
          by_cases hend : cur ∈ ends ∨ lookupD conns cur = []
          · rw [if_pos hend] at hp
            refine ih rest (visited ++ [path]) _ hrest ?_ p hp
            intro q hq'
            by_cases hl : 1 < path.length
            · rw [if_pos hl] at hq'
              rcases List.mem_append.mp hq' with hq' | hq'
              · exact hres q hq'
              · rw [List.mem_singleton.mp hq']
                exact ⟨hhead.2.2.1, hhead.2.2.2⟩
            · rw [if_neg hl] at hq'
              exact hres q hq'
          · rw [if_neg hend] at hp
            refine ih _ (visited ++ [path]) paths ?_ hres p hp
            intro e he
            rcases List.mem_append.mp he with he | he
            · exact hrest e he
            · obtain ⟨h1, h2, _, h4⟩ := (mem_ghPushes conns cur path e).mp he
              refine ⟨by simp [h4], by rw [h4]; exact getLast?_append_singleton _ _, ?_, ?_⟩
              · rw [h4]
                simp [List.nodup_append, hhead.2.2.1, h2]
              · rw [h4]
                refine isForwardChain_append conns path cur e.1 hhead.2.2.2 hhead.2.1 ?_
                simpa using h1

/-!
## Helper lemmas for the classifier, builder and group detector
-/

theorem foldl_min_attained (f : String → Nat) (cs : List String) :
    ∀ init, cs.foldl (fun acc g => Nat.min acc (f g)) init = init ∨
      ∃ g ∈ cs, cs.foldl (fun acc g => Nat.min acc (f g)) init = f g := by
  induction cs with
  | nil => intro init; exact Or.inl rfl
  | cons c cs ih =>
    intro init
    rw [List.foldl_cons]
    rcases ih (Nat.min init (f c)) with h | h
    · rw [h]
      by_cases hm : init ≤ f c
      · exact Or.inl (Nat.min_eq_left hm)
      · right
        exact ⟨c, List.mem_cons_self _ _, Nat.min_eq_right (Nat.le_of_not_le hm)⟩
    · obtain ⟨g, hg, hEq⟩ := h
      exact Or.inr ⟨g, List.mem_cons_of_mem _ hg, hEq⟩

theorem ghDegreeCandidates_ne_nil (comps : List String) (m : Adj) (h : comps ≠ []) :
    ghDegreeCandidates comps m ≠ [] := by
  simp only [ghDegreeCandidates]
  by_cases hz : (comps.filter (fun g => lookupD m g = [])).isEmpty
  · rw [if_pos hz]
    cases comps with
    | nil => exact absurd rfl h
    | cons c cs =>
      rcases foldl_min_attained (fun g => (lookupD m g).length) cs
          ((lookupD m c).length) with hmin | hmin
      · apply List.ne_nil_of_mem (a := c)
        rw [List.mem_filter]
        exact ⟨List.mem_cons_self _ _, by rw [hmin]; simp⟩
      · obtain ⟨g, hg, hEq⟩ := hmin
        apply List.ne_nil_of_mem (a := g)
        rw [List.mem_filter]
        exact ⟨List.mem_cons_of_mem _ hg, by rw [hEq]; simp⟩
  · rw [if_neg hz]
    intro hc
    exact hz (by rw [hc]; rfl)

theorem assocFind_mem {α : Type} (l : List (String × α)) (k : String) (v : α)
    (h : assocFind l k = some v) : (k, v) ∈ l := by
  induction l with
  | nil => cases h
  | cons p rest ih =>
    obtain ⟨k', v'⟩ := p
    by_cases hk : k' = k
    · subst hk
      rw [assocFind, if_pos rfl] at h
      injection h with h
      subst h
      exact List.mem_cons_self _ _
    · simp only [assocFind, if_neg hk] at h
      exact List.mem_cons_of_mem _ (ih h)

theorem mem_foldl_ports (nid : String) (ports : List (Option String)) :
    ∀ (acc : List (String × String)) e,
      e ∈ ports.foldl
        (fun a pid => match pid with
          | none => a
          | some s => if s = "" then a else (s, nid) :: a) acc →
      e ∈ acc ∨ e.2 = nid := by
  induction ports with
  | nil => intro acc e he; exact Or.inl he
  | cons p ps ih =>
    intro acc e he
    cases p with
    | none => exact ih acc e he
    | some s =>
      by_cases hs : s = ""
      · rw [List.foldl_cons] at he
        simp only [hs, if_pos rfl] at he
        exact ih acc e he
      · rw [List.foldl_cons] at he
        simp only [if_neg hs] at he
        rcases ih _ e he with h | h
        · rcases List.mem_cons.mp h with h | h
          · rw [h]
            exact Or.inr rfl
          · exact Or.inl h
        · exact Or.inr h

theorem portToNode_mem (nodes : List (String × RawNode)) :
    ∀ e ∈ portToNode nodes, e.2 ∈ nodes.map (·.1) := by
  suffices hgen : ∀ (L : List (String × RawNode)) (acc : List (String × String)),
      (∀ e ∈ acc, e.2 ∈ nodes.map (·.1)) → (∀ p ∈ L, p.1 ∈ nodes.map (·.1)) →
      ∀ e ∈ L.foldl
        (fun acc p =>
          let withIns := p.2.inputs.foldl
            (fun a pid => match pid with
              | none => a
              | some s => if s = "" then a else (s, p.1) :: a) acc
          p.2.outputs.foldl
            (fun a pid => match pid with
              | none => a
              | some s => if s = "" then a else (s, p.1) :: a) withIns) acc,
        e.2 ∈ nodes.map (·.1) by
    intro e he
    exact hgen nodes [] (by intro e' he'; cases he')
      (fun p hp => List.mem_map.mpr ⟨p, hp, rfl⟩) e he
  intro L
  induction L with
  | nil => intro acc hacc _ e he; exact hacc e he
  | cons p ps ih =>
    intro acc hacc hL e he
    rw [List.foldl_cons] at he
    refine ih _ ?_ (fun q hq => hL q (List.mem_cons_of_mem _ hq)) e he
    intro e' he'
    rcases mem_foldl_ports p.1 p.2.outputs _ e' he' with h | h
    · rcases mem_foldl_ports p.1 p.2.inputs _ e' h with h' | h'
      · exact hacc e' h'
      · rw [h']
        exact hL p (List.mem_cons_self _ _)
    · rw [h]
      exact hL p (List.mem_cons_self _ _)

theorem adjAppend_ok (ids : List String) (m : Adj) (k v : String)
    (hm : ∀ p ∈ m, p.1 ∈ ids ∧ ∀ x ∈ p.2, x ∈ ids ∧ x ≠ p.1)
    (hk : k ∈ ids) (hv : v ∈ ids) (hvk : v ≠ k) :
    ∀ p ∈ adjAppend m k v, p.1 ∈ ids ∧ ∀ x ∈ p.2, x ∈ ids ∧ x ≠ p.1 := by
  induction m with
  | nil =>
    intro p hp
    rcases List.mem_singleton.mp hp with rfl
    exact ⟨hk, fun x hx => by rw [List.mem_singleton.mp hx]; exact ⟨hv, hvk⟩⟩
  | cons q rest ih =>
    obtain ⟨k', vs⟩ := q
    intro p hp
    by_cases hk' : k' = k
    · rw [adjAppend, if_pos hk'] at hp
      rcases List.mem_cons.mp hp with rfl | hp
      · have hq := hm (k', vs) (List.mem_cons_self _ _)
        refine ⟨hq.1, fun x hx => ?_⟩
        rcases List.mem_append.mp hx with hx | hx
        · exact hq.2 x hx
        · rw [List.mem_singleton.mp hx, hk']
          exact ⟨hv, hvk⟩
      · exact hm p (List.mem_cons_of_mem _ hp)
    · rw [adjAppend, if_neg hk'] at hp
      rcases List.mem_cons.mp hp with rfl | hp
      · exact hm (k', vs) (List.mem_cons_self _ _)
      · exact ih (fun q hq => hm q (List.mem_cons_of_mem _ hq)) p hp

theorem buildAdjRev_ok (p2n : List (String × String)) (ids : List String)
    (hp2n : ∀ pid nid, assocFind p2n pid = some nid → nid ∈ ids)
    (connectors : List RawConn) :
    (∀ p ∈ (buildAdjRev p2n connectors).1, p.1 ∈ ids ∧ ∀ x ∈ p.2, x ∈ ids ∧ x ≠ p.1) ∧
    (∀ p ∈ (buildAdjRev p2n connectors).2, p.1 ∈ ids ∧ ∀ x ∈ p.2, x ∈ ids ∧ x ≠ p.1) := by
  suffices hgen : ∀ (cs : List RawConn) (st : Adj × Adj),
      (∀ p ∈ st.1, p.1 ∈ ids ∧ ∀ x ∈ p.2, x ∈ ids ∧ x ≠ p.1) →
      (∀ p ∈ st.2, p.1 ∈ ids ∧ ∀ x ∈ p.2, x ∈ ids ∧ x ≠ p.1) →
      (∀ p ∈ (cs.foldl
        (fun st c =>
          match c.cStart, c.cEnd with
          | some s, some e =>
            if s = "" ∨ e = "" then st
            else
              match assocFind p2n s, assocFind p2n e with
              | some sNode, some eNode =>
                if sNode = "" ∨ eNode = "" ∨ sNode = eNode then st
                else (adjAppend st.1 sNode eNode, adjAppend st.2 eNode sNode)
              | _, _ => st
          | _, _ => st) st).1, p.1 ∈ ids ∧ ∀ x ∈ p.2, x ∈ ids ∧ x ≠ p.1) ∧
      (∀ p ∈ (cs.foldl
        (fun st c =>
          match c.cStart, c.cEnd with
          | some s, some e =>
            if s = "" ∨ e = "" then st
            else
              match assocFind p2n s, assocFind p2n e with
              | some sNode, some eNode =>
                if sNode = "" ∨ eNode = "" ∨ sNode = eNode then st
                else (adjAppend st.1 sNode eNode, adjAppend st.2 eNode sNode)
              | _, _ => st
          | _, _ => st) st).2, p.1 ∈ ids ∧ ∀ x ∈ p.2, x ∈ ids ∧ x ≠ p.1) by
    exact hgen connectors ([], []) (by intro p hp; cases hp) (by intro p hp; cases hp)
  intro cs
  induction cs with
  | nil => intro st h1 h2; exact ⟨h1, h2⟩
  | cons c rest ih =>
    intro st h1 h2
    rw [List.foldl_cons]
    cases hcS : c.cStart with
    | none => exact ih st h1 h2
    | some s =>
      cases hcE : c.cEnd with
      | none => exact ih st h1 h2
      | some e =>
        by_cases hse : s = "" ∨ e = ""
        · simp only [if_pos hse]
          exact ih st h1 h2
        · simp only [if_neg hse]
          cases hfS : assocFind p2n s with
          | none => exact ih st h1 h2
          | some sNode =>
            cases hfE : assocFind p2n e with
            | none => exact ih st h1 h2
            | some eNode =>
              by_cases hguard : sNode = "" ∨ eNode = "" ∨ sNode = eNode
              · simp only [if_pos hguard]
                exact ih st h1 h2
              · simp only [if_neg hguard]
                have hsIds : sNode ∈ ids := hp2n s sNode hfS
                have heIds : eNode ∈ ids := hp2n e eNode hfE
                have hne : sNode ≠ eNode := fun hc => hguard (Or.inr (Or.inr hc))
                exact ih _
                  (adjAppend_ok ids st.1 sNode eNode h1 hsIds heIds hne.symm)
                  (adjAppend_ok ids st.2 eNode sNode h2 heIds hsIds hne)

theorem ghAddConnection_ok (comps : List String) (st : Adj × Adj) (s t : String)
    (h1 : ∀ p ∈ st.1, p.1 ∈ comps ∧ ∀ x ∈ p.2, x ∈ comps ∧ x ≠ p.1)
    (h2 : ∀ p ∈ st.2, p.1 ∈ comps ∧ ∀ x ∈ p.2, x ∈ comps ∧ x ≠ p.1)
    (hs : s ∈ comps) (ht : t ∈ comps) (hst : s ≠ t) :
    (∀ p ∈ (ghAddConnection st s t).1, p.1 ∈ comps ∧ ∀ x ∈ p.2, x ∈ comps ∧ x ≠ p.1) ∧
    (∀ p ∈ (ghAddConnection st s t).2, p.1 ∈ comps ∧ ∀ x ∈ p.2, x ∈ comps ∧ x ≠ p.1) := by
  constructor
  · show ∀ p ∈ (if t ∈ lookupD st.1 s then st.1 else adjAppend st.1 s t), _
    by_cases hmem : t ∈ lookupD st.1 s
    · rw [if_pos hmem]; exact h1
    · rw [if_neg hmem]
      exact adjAppend_ok comps st.1 s t h1 hs ht hst.symm
  · show ∀ p ∈ (if s ∈ lookupD st.2 t then st.2 else adjAppend st.2 t s), _
    by_cases hmem : s ∈ lookupD st.2 t
    · rw [if_pos hmem]; exact h2
    · rw [if_neg hmem]
      exact adjAppend_ok comps st.2 t s h2 ht hs hst

theorem ghScanPairs_ok (comps : List String) :
    ∀ (guids : List String) (st : Adj × Adj),
      (∀ p ∈ st.1, p.1 ∈ comps ∧ ∀ x ∈ p.2, x ∈ comps ∧ x ≠ p.1) →
      (∀ p ∈ st.2, p.1 ∈ comps ∧ ∀ x ∈ p.2, x ∈ comps ∧ x ≠ p.1) →
      (∀ p ∈ (ghScanPairs comps guids st).1,
        p.1 ∈ comps ∧ ∀ x ∈ p.2, x ∈ comps ∧ x ≠ p.1) ∧
      (∀ p ∈ (ghScanPairs comps guids st).2,
        p.1 ∈ comps ∧ ∀ x ∈ p.2, x ∈ comps ∧ x ≠ p.1) := by
  intro guids
  induction guids with
  | nil => intro st h1 h2; exact ⟨h1, h2⟩
  | cons g rest ih =>
    intro st h1 h2
    rw [ghScanPairs]
    have hinner : ∀ (ts : List String) (acc : Adj × Adj),
        (∀ p ∈ acc.1, p.1 ∈ comps ∧ ∀ x ∈ p.2, x ∈ comps ∧ x ≠ p.1) →
        (∀ p ∈ acc.2, p.1 ∈ comps ∧ ∀ x ∈ p.2, x ∈ comps ∧ x ≠ p.1) →
        (∀ p ∈ (ts.foldl
          (fun acc t =>
            if g ∈ comps ∧ t ∈ comps ∧ g ≠ t then ghAddConnection acc g t else acc) acc).1,
          p.1 ∈ comps ∧ ∀ x ∈ p.2, x ∈ comps ∧ x ≠ p.1) ∧
        (∀ p ∈ (ts.foldl
          (fun acc t =>
            if g ∈ comps ∧ t ∈ comps ∧ g ≠ t then ghAddConnection acc g t else acc) acc).2,
          p.1 ∈ comps ∧ ∀ x ∈ p.2, x ∈ comps ∧ x ≠ p.1) := by
      intro ts
      induction ts with
      | nil => intro acc hA hB; exact ⟨hA, hB⟩
      | cons t ts ihts =>
        intro acc hA hB
        rw [List.foldl_cons]
        by_cases hcond : g ∈ comps ∧ t ∈ comps ∧ g ≠ t
        · rw [if_pos hcond]
          have := ghAddConnection_ok comps acc g t hA hB hcond.1 hcond.2.1 hcond.2.2
          exact ihts _ this.1 this.2
        · rw [if_neg hcond]
          exact ihts acc hA hB
    have := hinner rest st h1 h2
    exact ih _ this.1 this.2

theorem ghScanAll_ok (comps : List String) (frags : List (List String)) :
    (∀ p ∈ (ghScanAll comps frags).1, p.1 ∈ comps ∧ ∀ x ∈ p.2, x ∈ comps ∧ x ≠ p.1) ∧
    (∀ p ∈ (ghScanAll comps frags).2, p.1 ∈ comps ∧ ∀ x ∈ p.2, x ∈ comps ∧ x ≠ p.1) := by
  suffices hgen : ∀ (fs : List (List String)) (st : Adj × Adj),
      (∀ p ∈ st.1, p.1 ∈ comps ∧ ∀ x ∈ p.2, x ∈ comps ∧ x ≠ p.1) →
      (∀ p ∈ st.2, p.1 ∈ comps ∧ ∀ x ∈ p.2, x ∈ comps ∧ x ≠ p.1) →
      (∀ p ∈ (fs.foldl (fun st guids => ghScanPairs comps guids st) st).1,
        p.1 ∈ comps ∧ ∀ x ∈ p.2, x ∈ comps ∧ x ≠ p.1) ∧
      (∀ p ∈ (fs.foldl (fun st guids => ghScanPairs comps guids st) st).2,
        p.1 ∈ comps ∧ ∀ x ∈ p.2, x ∈ comps ∧ x ≠ p.1) by
    exact hgen frags ([], []) (by intro p hp; cases hp) (by intro p hp; cases hp)
  intro fs
  induction fs with
  | nil => intro st h1 h2; exact ⟨h1, h2⟩
  | cons f fs ih =>
    intro st h1 h2
    rw [List.foldl_cons]
    have := ghScanPairs_ok comps f st h1 h2
    exact ih _ this.1 this.2

theorem insAsc_length (x : String) (l : List String) :
    (insAsc x l).length = l.length + 1 := by
  induction l with
  | nil => rfl
  | cons y ys ih =>
    by_cases h : strLtB y x = true
    · simp [insAsc, h, ih]
    · simp [insAsc, h]

theorem sortStrs_length (l : List String) : (sortStrs l).length = l.length := by
  induction l with
  | nil => rfl
  | cons x xs ih =>
    show (insAsc x (sortStrs xs)).length = xs.length + 1
    rw [insAsc_length, ih]

theorem sortStrs_eq_nil (l : List String) : sortStrs l = [] ↔ l = [] := by
  constructor
  · intro h
    have := sortStrs_length l
    rw [h] at this
    exact List.length_eq_zero.mp this.symm
  · intro h; subst h; rfl

theorem groupAppend_inv (rev : Adj) (gs : List (List String × List String))
    (k : List String) (g : String)
    (hgs : ∀ q ∈ gs, q.1 ≠ [] ∧ ∀ a ∈ q.2, sortStrs (lookupD rev a) = q.1)
    (hk : k ≠ []) (hg : sortStrs (lookupD rev g) = k) :
    ∀ q ∈ groupAppend gs k g, q.1 ≠ [] ∧ ∀ a ∈ q.2, sortStrs (lookupD rev a) = q.1 := by
  induction gs with
  | nil =>
    intro q hq
    rcases List.mem_singleton.mp hq with rfl
    exact ⟨hk, fun a ha => by rw [List.mem_singleton.mp ha]; exact hg⟩
  | cons p rest ih =>
    obtain ⟨k', ms⟩ := p
    intro q hq
    by_cases hkk : k' = k
    · rw [groupAppend, if_pos hkk] at hq
      rcases List.mem_cons.mp hq with rfl | hq
      · have hp := hgs (k', ms) (List.mem_cons_self _ _)
        refine ⟨hp.1, fun a ha => ?_⟩
        rcases List.mem_append.mp ha with ha | ha
        · exact hp.2 a ha
        · rw [List.mem_singleton.mp ha, hg, hkk]
      · exact hgs q (List.mem_cons_of_mem _ hq)
    · rw [groupAppend, if_neg hkk] at hq
      rcases List.mem_cons.mp hq with rfl | hq
      · exact hgs (k', ms) (List.mem_cons_self _ _)
      · exact ih (fun q' hq' => hgs q' (List.mem_cons_of_mem _ hq')) q hq

theorem ghGroups_fold_inv (rev : Adj) :
    ∀ (cs : List String) (gs : List (List String × List String)),
      (∀ q ∈ gs, q.1 ≠ [] ∧ ∀ a ∈ q.2, sortStrs (lookupD rev a) = q.1) →
      ∀ q ∈ cs.foldl
        (fun gs g =>
          let k := sortStrs (lookupD rev g)
          if k.isEmpty then gs else groupAppend gs k g) gs,
        q.1 ≠ [] ∧ ∀ a ∈ q.2, sortStrs (lookupD rev a) = q.1 := by
  intro cs
  induction cs with
  | nil => intro gs hgs q hq; exact hgs q hq
  | cons c cs ih =>
    intro gs hgs q hq
    simp only [List.foldl_cons] at hq
    by_cases hk : (sortStrs (lookupD rev c)).isEmpty
    · rw [if_pos hk] at hq
      exact ih gs hgs q hq
    · rw [if_neg hk] at hq
      refine ih _ ?_ q hq
      exact groupAppend_inv rev gs _ c hgs
        (by intro hc; exact hk (by rw [hc]; rfl)) rfl

theorem assocPut_keys {α : Type} (m : List (String × α)) (k : String) (v : α) (x : String) :
    x ∈ (assocPut m k v).map (·.1) ↔ x ∈ m.map (·.1) ∨ x = k := by
  induction m with
  | nil => simp [assocPut]
  | cons p rest ih =>
    obtain ⟨k', v'⟩ := p
    by_cases hk : k' = k
    · subst hk
      rw [assocPut, if_pos rfl]
      simp only [List.map_cons, List.mem_cons]
      tauto
    · rw [assocPut, if_neg hk]
      simp only [List.map_cons, List.mem_cons]
      rw [ih]
      tauto

theorem dynNodeIds_mem_aux (raw : List RawNode) :
    ∀ (acc : List (String × RawNode)) (k : String),
      k ∈ (raw.foldl
        (fun m n =>
          match n.id with
          | none => m
          | some nid => if nid = "" then m else assocPut m nid n) acc).map (·.1) ↔
      k ∈ acc.map (·.1) ∨ ∃ n ∈ raw, n.id = some k ∧ k ≠ "" := by
  induction raw with
  | nil => intro acc k; simp
  | cons n rest ih =>
    intro acc k
    rw [List.foldl_cons]
    cases hid : n.id with
    | none =>
      rw [ih]
      constructor
      · rintro (h | ⟨m, hm, h1, h2⟩)
        · exact Or.inl h
        · exact Or.inr ⟨m, List.mem_cons_of_mem _ hm, h1, h2⟩
      · rintro (h | ⟨m, hm, h1, h2⟩)
        · exact Or.inl h
        · rcases List.mem_cons.mp hm with rfl | hm
          · rw [hid] at h1; cases h1
          · exact Or.inr ⟨m, hm, h1, h2⟩
    | some nid =>
      dsimp only
      by_cases hnid : nid = ""
      · rw [if_pos hnid, ih]
        constructor
        · rintro (h | ⟨m, hm, h1, h2⟩)
          · exact Or.inl h
          · exact Or.inr ⟨m, List.mem_cons_of_mem _ hm, h1, h2⟩
        · rintro (h | ⟨m, hm, h1, h2⟩)
          · exact Or.inl h
          · rcases List.mem_cons.mp hm with rfl | hm
            · rw [hid] at h1
              injection h1 with h1
              exact absurd (show k = "" by rw [← h1, hnid]) h2
            · exact Or.inr ⟨m, hm, h1, h2⟩
      · rw [if_neg hnid, ih]
        rw [assocPut_keys]
        constructor
        · rintro ((h | rfl) | ⟨m, hm, h1, h2⟩)
          · exact Or.inl h
          · exact Or.inr ⟨n, List.mem_cons_self _ _, by rw [hid], hnid⟩
          · exact Or.inr ⟨m, List.mem_cons_of_mem _ hm, h1, h2⟩
        · rintro (h | ⟨m, hm, h1, h2⟩)
          · exact Or.inl (Or.inl h)
          · rcases List.mem_cons.mp hm with rfl | hm
            · rw [hid] at h1
              injection h1 with h1
              exact Or.inl (Or.inr h1.symm)
            · exact Or.inr ⟨m, hm, h1, h2⟩

theorem dynNodeIds_mem (raw : List RawNode) (k : String) :
    k ∈ dynNodeIds raw ↔ ∃ n ∈ raw, n.id = some k ∧ k ≠ "" := by
  unfold dynNodeIds dynNodesAssoc
  rw [dynNodeIds_mem_aux raw [] k]
  simp

/-!
## The claims
-/

/-- C1: every path returned by the path enumerator (Dynamo `_simple_paths`
with its default caps, and Grasshopper `_trace_paths_from_start`) is
cycle-free — a sequence of pairwise-distinct node ids — and every
consecutive pair of its nodes is connected by a forward edge of the graph,
for every graph and every start/end choice. -/
theorem claim1_paths_cycle_free :
    (∀ (adj : Adj) (s e : String) (p : List String), p ∈ simplePaths adj s e →
      p.Nodup ∧ isForwardChain adj p = true) ∧
    (∀ (conns : Adj) (ends : List String) (maxP : Nat) (s : String) (p : List String),
      p ∈ tracePathsFromStart conns ends maxP s →
      p.Nodup ∧ isForwardChain conns p = true) := by
  constructor
  · intro adj s e p hp
    refine dynLoopSteps_simple adj 50 200 e 10000 10000 0 [(s, [s])] [] ?_ ?_ p hp
    · intro e' he'
      rw [List.mem_singleton.mp he']
      exact ⟨by simp, by simp, by simp, rfl⟩
    · intro q hq
      cases hq
  · intro conns ends maxP s p hp
    refine ghLoop_simple conns ends maxP (ghBound conns s) [(s, [s])] [] [] ?_ ?_ p hp
    · intro e' he'
      rw [List.mem_singleton.mp he']
      exact ⟨by simp, by simp, by simp, rfl⟩
    · intro q hq
      cases hq

/-- Witness for C1 on the one-edge graph `a → b`: both enumerators return
the path `[a, b]`, and the theorem yields its distinctness and chain
property. -/
theorem claim1_witness :
    (["a", "b"] ∈ simplePaths [("a", ["b"])] "a" "b" ∧
      (["a", "b"] : List String).Nodup ∧ isForwardChain [("a", ["b"])] ["a", "b"] = true) ∧
    (["a", "b"] ∈ tracePathsFromStart [("a", ["b"])] ["b"] 3 "a" ∧
      (["a", "b"] : List String).Nodup ∧ isForwardChain [("a", ["b"])] ["a", "b"] = true) := by
  constructor
  · refine ⟨by decide, ?_⟩
    exact claim1_paths_cycle_free.1 [("a", ["b"])] "a" "b" ["a", "b"] (by decide)
  · refine ⟨by decide, ?_⟩
    exact claim1_paths_cycle_free.2 [("a", ["b"])] ["b"] 3 "a" ["a", "b"] (by decide)

/-- C6: both traversals terminate on every graph, cyclic ones included.
For the Dynamo DFS the step guard (`visited_guard = 10_000`) bounds the
number of loop iterations, so the embedding's fuel is irrelevant once it
reaches the remaining budget `guard - steps`.  For the Grasshopper BFS the
visited set, the path-length cap 10 and the path-count cap bound the loop,
so the result is the same for every fuel at least `ghBound conns s`. -/
theorem claim6_traversals_terminate :
    (∀ (adj : Adj) (capP capL : Nat) (endN : String) (guard steps : Nat)
        (stack : List (String × List String)) (res : List (List String)) (f1 f2 : Nat),
      guard ≤ steps + f1 → guard ≤ steps + f2 →
      dynLoopSteps adj capP capL endN guard f1 steps stack res =
        dynLoopSteps adj capP capL endN guard f2 steps stack res) ∧
    (∀ (conns : Adj) (ends : List String) (maxP : Nat) (s : String) (f1 f2 : Nat),
      ghBound conns s ≤ f1 → ghBound conns s ≤ f2 →
      ghLoop conns ends maxP f1 [(s, [s])] [] [] =
        ghLoop conns ends maxP f2 [(s, [s])] [] []) := by
  constructor
  · intro adj capP capL endN guard steps stack res f1 f2 h1 h2
    exact dynLoopSteps_fuel_irrel adj capP capL endN guard f1 f2 steps stack res h1 h2
  · intro conns ends maxP s f1 f2 h1 h2
    refine ghLoop_fuel_irrel conns ends maxP (ghUniverse conns s)
      (fun cur v hv => lookupD_mem_ghUniverse conns s cur hv) f1 f2
      [(s, [s])] [] [] ?_ List.nodup_nil ?_ ?_
    · intro e' he'
      rw [List.mem_singleton.mp he']
      rw [pathOKb_spec]
      refine ⟨by simp, by simp, ?_⟩
      intro x hx
      rw [List.mem_singleton.mp hx]
      exact start_mem_ghUniverse conns s
    · simpa [ghBound] using h1
    · simpa [ghBound] using h2

/-- Witness for C6: concrete fuel values beyond the respective bounds give
identical results on small graphs. -/
theorem claim6_witness :
    (10000 ≤ 0 + 10000 ∧ 10000 ≤ 0 + 10001 ∧
      dynLoopSteps [] 50 200 "e" 10000 10000 0 [("s", ["s"])] [] =
        dynLoopSteps [] 50 200 "e" 10000 10001 0 [("s", ["s"])] []) ∧
    (ghBound [] "s" ≤ 1025 ∧ ghBound [] "s" ≤ 1026 ∧
      ghLoop [] [] 3 1025 [("s", ["s"])] [] [] = ghLoop [] [] 3 1026 [("s", ["s"])] [] []) := by
  constructor
  · exact ⟨by decide, by decide,
      claim6_traversals_terminate.1 [] 50 200 "e" 10000 0 [("s", ["s"])] [] 10000 10001
        (by decide) (by decide)⟩
  · exact ⟨by decide, by decide,
      claim6_traversals_terminate.2 [] [] 3 "s" 1025 1026 (by decide) (by decide)⟩

/-- Counterexample to C2: a two-node cycle built from raw Dynamo records
(`n1 → n2 → n1`, no view input/output flags).  The graph has two nodes, yet
`_pick_starts` and `_pick_ends` return empty lists: the Dynamo classifier
has no minimum-degree fallback. -/
theorem claim2_counterexample :
    (dynNodeIds [⟨some "n1", [some "q1"], [some "p1"], none⟩,
        ⟨some "n2", [some "q2"], [some "p2"], none⟩]).length = 2 ∧
    dynPickStarts
      (dynNodeIds [⟨some "n1", [some "q1"], [some "p1"], none⟩,
        ⟨some "n2", [some "q2"], [some "p2"], none⟩])
      (dynBuildGraph [⟨some "n1", [some "q1"], [some "p1"], none⟩,
        ⟨some "n2", [some "q2"], [some "p2"], none⟩]
        [⟨some "p1", some "q2"⟩, ⟨some "p2", some "q1"⟩]).rev [] = [] ∧
    dynPickEnds
      (dynNodeIds [⟨some "n1", [some "q1"], [some "p1"], none⟩,
        ⟨some "n2", [some "q2"], [some "p2"], none⟩])
      (dynBuildGraph [⟨some "n1", [some "q1"], [some "p1"], none⟩,
        ⟨some "n2", [some "q2"], [some "p2"], none⟩]
        [⟨some "p1", some "q2"⟩, ⟨some "p2", some "q1"⟩]).adj [] = [] := by
  decide

/-- C2 as amended: the minimum-degree fallback exists only in the
Grasshopper classifier, whose start and end sets are non-empty for every
graph with at least one component; the Dynamo `_pick_starts`/`_pick_ends`
return exactly the union of the zero-degree set and the view flags, which
is empty whenever both are (no fallback — `analyze_flow` compensates
separately, see C10). -/
theorem claim2_amended :
    (∀ (comps : List String) (revConns conns : Adj), comps ≠ [] →
      ghFindStartNodes comps revConns ≠ [] ∧ ghFindEndNodes comps conns ≠ []) ∧
    (∀ (ids : List String) (rev : Adj) (vi : List String),
      dynPickStarts ids rev vi = [] ↔ degreeZero ids rev = [] ∧ vi = []) ∧
    (∀ (ids : List String) (adj : Adj) (vo : List String),
      dynPickEnds ids adj vo = [] ↔ degreeZero ids adj = [] ∧ vo = []) := by
  refine ⟨?_, ?_, ?_⟩
  · intro comps revConns conns h
    exact ⟨ghDegreeCandidates_ne_nil comps revConns h, ghDegreeCandidates_ne_nil comps conns h⟩
  · intro ids rev vi
    unfold dynPickStarts
    rw [dedupFirst_eq_nil, List.append_eq_nil]
  · intro ids adj vo
    unfold dynPickEnds
    rw [dedupFirst_eq_nil, List.append_eq_nil]

/-- Witness for C2 as amended: a single isolated component yields non-empty
Grasshopper start and end sets. -/
theorem claim2_witness :
    (["a"] : List String) ≠ [] ∧
    (ghFindStartNodes ["a"] [] ≠ [] ∧ ghFindEndNodes ["a"] [] ≠ []) := by
  refine ⟨by decide, ?_⟩
  exact claim2_amended.1 ["a"] [] [] (by decide)

/-- Counterexample to C3: from raw Dynamo records, node `n1` has two
parallel connectors to the single distinct target `n2`, yet `analyze_flow`
reports `n1` as a branching point and `n2` as a merge point — multiplicity,
not the number of distinct neighbours, is what both pipelines count. -/
theorem claim3_counterexample :
    (lookupD (dynBuildGraph [⟨some "n1", [], [some "p1", some "p2"], none⟩,
        ⟨some "n2", [some "q1", some "q2"], [], none⟩]
        [⟨some "p1", some "q1"⟩, ⟨some "p2", some "q2"⟩]).adj "n1").dedup = ["n2"] ∧
    dynDegAboveOne
      (dynNodeIds [⟨some "n1", [], [some "p1", some "p2"], none⟩,
        ⟨some "n2", [some "q1", some "q2"], [], none⟩])
      (dynBuildGraph [⟨some "n1", [], [some "p1", some "p2"], none⟩,
        ⟨some "n2", [some "q1", some "q2"], [], none⟩]
        [⟨some "p1", some "q1"⟩, ⟨some "p2", some "q2"⟩]).adj = ["n1"] ∧
    dynDegAboveOne
      (dynNodeIds [⟨some "n1", [], [some "p1", some "p2"], none⟩,
        ⟨some "n2", [some "q1", some "q2"], [], none⟩])
      (dynBuildGraph [⟨some "n1", [], [some "p1", some "p2"], none⟩,
        ⟨some "n2", [some "q1", some "q2"], [], none⟩]
        [⟨some "p1", some "q1"⟩, ⟨some "p2", some "q2"⟩]).rev = ["n2"] := by
  decide

/-- C3 as amended: a node is reported as a branch (merge) point exactly when
its forward (reverse) adjacency list counted with multiplicity has length
greater than one; parallel edges to a single distinct neighbour therefore do
create branch/merge entries, in both pipelines. -/
theorem claim3_amended :
    (∀ (ids : List String) (m : Adj) (nid : String),
      nid ∈ dynDegAboveOne ids m ↔ nid ∈ ids ∧ 1 < (lookupD m nid).length) ∧
    (∀ (conns : Adj) (e : String × List String),
      e ∈ ghBranchingPoints conns ↔ e ∈ conns ∧ 1 < e.2.length) ∧
    (∀ (revConns : Adj) (e : String × List String),
      e ∈ ghMergePoints revConns ↔ e ∈ revConns ∧ 1 < e.2.length) := by
  refine ⟨?_, ?_, ?_⟩
  · intro ids m nid
    simp [dynDegAboveOne, List.mem_filter]
  · intro conns e
    simp [ghBranchingPoints, List.mem_filter]
  · intro revConns e
    simp [ghMergePoints, List.mem_filter]

/-- Counterexample to C4: the two pooled Dynamo paths `[x, y]` (a short path
through a python-typed node) and `[a, b, c]` (a longer path of plain nodes)
tie at weight 3, and the code keeps them in discovery order — the shorter
path first — while the claim's tie-break would put the longer path first. -/
theorem claim4_counterexample :
    scorePath [("y", ⟨some "y", [], [], some "python"⟩)] ["x", "y"] = 3 ∧
    scorePath [("y", ⟨some "y", [], [], some "python"⟩)] ["a", "b", "c"] = 3 ∧
    (["x", "y"] : List String).length < (["a", "b", "c"] : List String).length ∧
    dynScoredTop [("y", ⟨some "y", [], [], some "python"⟩)]
      [["x", "y"], ["a", "b", "c"]] = [["x", "y"], ["a", "b", "c"]] := by
  decide

/-- C4 as amended: the Dynamo ranking sorts the pooled paths by descending
weight alone (1 per node, 2 for a node whose lowered `ConcreteType` contains
python/codeblock/dsfunction) with the stable sort keeping equal-weight paths
in discovery order (no longer-path tie-break), returning at most the top 10
best first; the Grasshopper ranking sorts by descending length alone (no
weight function), also stable, top 10. -/
theorem claim4_amended :
    (∀ (nodes : List (String × RawNode)) (allPaths : List (List String)),
      (dynScoredTop nodes allPaths).length ≤ 10 ∧
      (dynScoredTop nodes allPaths).Pairwise
        (fun p q => scorePath nodes q ≤ scorePath nodes p) ∧
      (∀ p ∈ dynScoredTop nodes allPaths, p ∈ allPaths) ∧
      (∀ c : Nat, (sortDesc (scorePath nodes) allPaths).filter
          (fun p => scorePath nodes p == c)
        = allPaths.filter (fun p => scorePath nodes p == c))) ∧
    (∀ allPaths : List (List String),
      (ghTopPaths allPaths).length ≤ 10 ∧
      (ghTopPaths allPaths).Pairwise (fun p q => q.length ≤ p.length) ∧
      (∀ p ∈ ghTopPaths allPaths, p ∈ allPaths) ∧
      (∀ c : Nat, (sortDesc (fun p => p.length) allPaths).filter
          (fun p => p.length == c)
        = allPaths.filter (fun p => p.length == c))) := by
  constructor
  · intro nodes allPaths
    refine ⟨?_, ?_, ?_, ?_⟩
    · rw [dynScoredTop, List.length_take]
      exact Nat.min_le_left _ _
    · exact (sortDesc_pairwise (scorePath nodes) allPaths).sublist (List.take_sublist _ _)
    · intro p hp
      exact (mem_sortDesc (scorePath nodes) allPaths p).mp (List.take_subset _ _ hp)
    · intro c
      exact sortDesc_filter_key (scorePath nodes) allPaths c
  · intro allPaths
    refine ⟨?_, ?_, ?_, ?_⟩
    · rw [ghTopPaths, List.length_take]
      exact Nat.min_le_left _ _
    · exact (sortDesc_pairwise (fun p => p.length) allPaths).sublist (List.take_sublist _ _)
    · intro p hp
      rw [ghTopPaths] at hp
      exact (mem_sortDesc (fun p => p.length) allPaths p).mp (List.take_subset _ _ hp)
    · intro c
      exact sortDesc_filter_key (fun p => p.length) allPaths c

/-- Witness for C4 as amended: the membership conjuncts applied to singleton
pools. -/
theorem claim4_witness :
    (["a"] : List String) ∈ [["a"]] ∧ (["b"] : List String) ∈ [["b"]] := by
  constructor
  · exact (claim4_amended.1 [] [["a"]]).2.2.1 ["a"] (by decide)
  · exact (claim4_amended.2 [["b"]]).2.2.1 ["b"] (by decide)

/-- C5 (code bug): the ranked Dynamo output depends on the iteration order
of the start set.  On the graph `a → c ← b` the start candidates are the
set `{a, b}`; `_pick_starts` returns `list(set(...))`, whose order Python
draws from string hashes (randomised per process).  The two possible orders
give differently ordered top-path lists, so two invocations in different
processes need not agree — contradicting the required determinism.  The end
set `{c}` is a singleton, so its order is immaterial. -/
theorem claim5_start_order_dependence :
    dynPickEnds ["a", "b", "c"] [("a", ["c"]), ("b", ["c"])] [] = ["c"] ∧
    dynPickStarts ["a", "b", "c"] [("c", ["a", "b"])] [] = ["a", "b"] ∧
    (["a", "b"] : List String).Perm ["b", "a"] ∧
    dynRankedPaths [] [("a", ["c"]), ("b", ["c"])] ["a", "b", "c"] ["a", "b"] ["c"] ≠
      dynRankedPaths [] [("a", ["c"]), ("b", ["c"])] ["a", "b", "c"] ["b", "a"] ["c"] := by
  decide

/-- C7: after construction, every id in any forward or reverse adjacency
entry of the Dynamo index exists in the node set and no entry is a
self-loop; same for the Grasshopper connection dicts built by the
document scan (`_find_connection_patterns` / `_add_connection`).
Unresolvable or self-loop records are dropped, never raised on. -/
theorem claim7_adjacency_closed :
    (∀ (raw : List RawNode) (connectors : List RawConn),
      (∀ p ∈ (dynBuildGraph raw connectors).adj,
        p.1 ∈ dynNodeIds raw ∧ ∀ x ∈ p.2, x ∈ dynNodeIds raw ∧ x ≠ p.1) ∧
      (∀ p ∈ (dynBuildGraph raw connectors).rev,
        p.1 ∈ dynNodeIds raw ∧ ∀ x ∈ p.2, x ∈ dynNodeIds raw ∧ x ≠ p.1)) ∧
    (∀ (comps : List String) (frags : List (List String)),
      (∀ p ∈ (ghScanAll comps frags).1,
        p.1 ∈ comps ∧ ∀ x ∈ p.2, x ∈ comps ∧ x ≠ p.1) ∧
      (∀ p ∈ (ghScanAll comps frags).2,
        p.1 ∈ comps ∧ ∀ x ∈ p.2, x ∈ comps ∧ x ≠ p.1)) := by
  constructor
  · intro raw connectors
    have hp2n : ∀ pid nid, assocFind (portToNode (dynNodesAssoc raw)) pid = some nid →
        nid ∈ dynNodeIds raw := by
      intro pid nid h
      exact portToNode_mem (dynNodesAssoc raw) (pid, nid) (assocFind_mem _ _ _ h)
    exact buildAdjRev_ok (portToNode (dynNodesAssoc raw)) (dynNodeIds raw) hp2n connectors
  · intro comps frags
    exact ghScanAll_ok comps frags

/-- Witness for C7: a resolved one-connector Dynamo graph and a one-fragment
Grasshopper scan, with the theorem applied to their adjacency entries. -/
theorem claim7_witness :
    ("n1" ∈ dynNodeIds [⟨some "n1", [], [some "p1"], none⟩,
        ⟨some "n2", [some "q1"], [], none⟩] ∧
      ∀ x ∈ ["n2"], x ∈ dynNodeIds [⟨some "n1", [], [some "p1"], none⟩,
        ⟨some "n2", [some "q1"], [], none⟩] ∧ x ≠ "n1") ∧
    ("a" ∈ ["a", "b"] ∧ ∀ x ∈ ["b"], x ∈ ["a", "b"] ∧ x ≠ "a") := by
  constructor
  · exact (claim7_adjacency_closed.1
      [⟨some "n1", [], [some "p1"], none⟩, ⟨some "n2", [some "q1"], [], none⟩]
      [⟨some "p1", some "q1"⟩]).1 ("n1", ["n2"]) (by decide)
  · exact (claim7_adjacency_closed.2 ["a", "b"] [["a", "b"]]).1 ("a", ["b"]) (by decide)

/-- C8: every parallel group reported by `_identify_parallel_processing`
has at least two members, all members share the identical sorted upstream
tuple, and components without upstream sources never appear in a group. -/
theorem claim8_parallel_groups :
    ∀ (comps : List String) (revConns : Adj) (grp : List String),
      grp ∈ ghParallelGroups comps revConns →
      2 ≤ grp.length ∧
      (∀ a ∈ grp, ∀ b ∈ grp,
        sortStrs (lookupD revConns a) = sortStrs (lookupD revConns b)) ∧
      (∀ a ∈ grp, lookupD revConns a ≠ []) := by
  intro comps revConns grp hgrp
  simp only [ghParallelGroups] at hgrp
  obtain ⟨q, hq, rfl⟩ := List.mem_map.mp hgrp
  have hqf := List.mem_filter.mp hq
  have hinv := ghGroups_fold_inv revConns comps []
    (by intro q' hq'; cases hq') q hqf.1
  refine ⟨?_, ?_, ?_⟩
  · have h2 : 1 < q.2.length := by simpa using hqf.2
    omega
  · intro a ha b hb
    rw [hinv.2 a ha, hinv.2 b hb]
  · intro a ha hnil
    have hsa := hinv.2 a ha
    rw [hnil] at hsa
    exact hinv.1 hsa.symm

/-- Witness for C8 on the diamond scenario `a → {b, c} → d`: the group
`[b, c]` is returned and satisfies all three properties. -/
theorem claim8_witness :
    (["b", "c"] : List String) ∈ ghParallelGroups ["a", "b", "c", "d"]
      [("b", ["a"]), ("c", ["a"]), ("d", ["b", "c"])] ∧
    (2 ≤ (["b", "c"] : List String).length ∧
      (∀ a ∈ (["b", "c"] : List String), ∀ b ∈ (["b", "c"] : List String),
        sortStrs (lookupD [("b", ["a"]), ("c", ["a"]), ("d", ["b", "c"])] a) =
          sortStrs (lookupD [("b", ["a"]), ("c", ["a"]), ("d", ["b", "c"])] b)) ∧
      (∀ a ∈ (["b", "c"] : List String),
        lookupD [("b", ["a"]), ("c", ["a"]), ("d", ["b", "c"])] a ≠ [])) := by
  refine ⟨by decide, ?_⟩
  exact claim8_parallel_groups ["a", "b", "c", "d"]
    [("b", ["a"]), ("c", ["a"]), ("d", ["b", "c"])] ["b", "c"] (by decide)

/-- Counterexample to C9: a document whose `Nodes` key holds an empty list
passes `load_dyn` without raising and builds an empty graph — the loader
does not raise when the raw node collection is empty, only when the key is
absent (or the document is not a dict). -/
theorem claim9_counterexample :
    loadDyn (DynRaw.dict (some []) (some [])) =
      Except.ok (DynRaw.dict (some []) (some [])) ∧
    (dynBuildGraph [] []).nodes = [] := ⟨rfl, rfl⟩

/-- C9 as amended: `load_dyn` succeeds exactly when the document is a dict
carrying both the `Nodes` and the `Connectors` key, regardless of their
emptiness; records without a usable `Id` are skipped, not fatal; the
Grasshopper `analyze_xml` never raises and signals the no-usable-graph
condition by returning `False` (empty component set). -/
theorem claim9_amended :
    (∀ d : DynRaw, (∃ v, loadDyn d = Except.ok v) ↔
      ∃ ns cs, d = DynRaw.dict (some ns) (some cs)) ∧
    (∀ (raw : List RawNode) (k : String),
      k ∈ dynNodeIds raw ↔ ∃ n ∈ raw, n.id = some k ∧ k ≠ "") ∧
    (∀ comps : List String, ghAnalyzeOk comps = true ↔ comps ≠ []) := by
  refine ⟨?_, dynNodeIds_mem, ?_⟩
  · intro d
    cases d with
    | notDict => simp [loadDyn]
    | dict ns cs =>
      cases ns with
      | none => simp [loadDyn]
      | some ns =>
        cases cs with
        | none => simp [loadDyn]
        | some cs => simp [loadDyn]
  · intro comps
    simp [ghAnalyzeOk, List.length_pos]

/-- C10: when the computed start list is empty, `analyze_flow` enumerates
from the first node of the node map as sole start (`list(nodes.keys())[:1]`),
and when the end list is empty it uses the last node
(`list(nodes.keys())[-1:]`); on the two-node cycle `a ⇄ b` with both sets
empty this yields the non-empty pool `[[a, b]]` rather than no paths. -/
theorem claim10_fallback :
    (∀ (adj : Adj) (keys ends : List String),
      dynPoolPaths adj keys [] ends =
        pairsPool adj (keys.take 1) (if ends.isEmpty then lastSlice keys else ends)) ∧
    (∀ (adj : Adj) (keys starts : List String),
      dynPoolPaths adj keys starts [] =
        pairsPool adj (if starts.isEmpty then keys.take 1 else starts) (lastSlice keys)) ∧
    dynPoolPaths [("a", ["b"]), ("b", ["a"])] ["a", "b"] [] [] = [["a", "b"]] := by
  refine ⟨fun adj keys ends => rfl, fun adj keys starts => rfl, by decide⟩
